import Mathlib

/-!
Verification of the VoiceSkip streaming transcription engine
(src/lib/src/main/jni/stream.c and jni.c) against its design specification.

The C sources are shallowly embedded: C `int`/`int64_t` values become `Int`
(all divisions in the C code are translated with `Int.tdiv`, the
truncate-toward-zero division of C), buffers become lists or lengths, and the
callback-driven stream loop becomes an explicitly-fueled state-transition
function.  External oracles (the audio producer, the VAD segmenter and the
inference engine) are parameters of the model.
-/

namespace VoiceSkip

/-- `WHISPER_SAMPLE_RATE` from whisper.h (16 kHz). -/
def WHISPER_SAMPLE_RATE : Int := 16000

/-- C integer division: truncation toward zero. -/
def cdiv (a b : Int) : Int := a.tdiv b

/-! ## Segment emission (stream.c, `stream_segment_callback`, lines 116-150)

For one new segment with raw engine timestamps `t0_raw`, `t1_raw`
(centiseconds within the chunk), the callback clips against the chunk
descriptor fields `time_offset`, `output_start`, `chunk_samples` and the
per-worker running `last_t1`, and either drops the segment or emits it and
updates `last_t1`. -/

/-- One step of `stream_segment_callback`: returns the emitted segment (if
any) and the updated `last_t1`. -/
def clip_segment (time_offset output_start chunk_samples : Int)
    (last_t1 t0_raw t1_raw : Int) : Option (Int × Int) × Int :=
  let t0 := t0_raw + time_offset
  let t1 := t1_raw + time_offset
  let t0 := if t0 < output_start then output_start else t0
  let chunk_end := time_offset + cdiv (chunk_samples * 100) WHISPER_SAMPLE_RATE
  let t1 := if t1 > chunk_end then chunk_end else t1
  let t0 := if t0 < last_t1 then last_t1 else t0
  if t0 ≥ t1 then (none, last_t1) else (some (t0, t1), t1)

/-- The loop of `stream_segment_callback` over the new segments of one chunk:
emitted segments in order, plus the final `last_t1`. -/
def emit_chunk_segments (time_offset output_start chunk_samples : Int) :
    Int → List (Int × Int) → List (Int × Int) × Int
  | last_t1, [] => ([], last_t1)
  | last_t1, (a, b) :: rest =>
    match clip_segment time_offset output_start chunk_samples last_t1 a b with
    | (none, l) => emit_chunk_segments time_offset output_start chunk_samples l rest
    | (some s, l) =>
      let r := emit_chunk_segments time_offset output_start chunk_samples l rest
      (s :: r.1, r.2)

/-- A whole stream run threaded through one per-worker `last_t1`: each entry
is one chunk's descriptor fields `(time_offset, output_start, chunk_samples)`
together with its raw segments. -/
def emit_stream_segments :
    Int → List ((Int × Int × Int) × List (Int × Int)) → List (Int × Int) × Int
  | last_t1, [] => ([], last_t1)
  | last_t1, (c, raw) :: rest =>
    let r := emit_chunk_segments c.1 c.2.1 c.2.2 last_t1 raw
    let r' := emit_stream_segments r.2 rest
    (r.1 ++ r'.1, r'.2)

/-- `last_t1`-threaded chain property: every emitted segment starts no earlier
than the running lower bound, is non-degenerate, and raises the bound to its
end timestamp. -/
def ChainFrom : Int → List (Int × Int) → Prop
  | _, [] => True
  | l, s :: rest => l ≤ s.1 ∧ s.1 < s.2 ∧ ChainFrom s.2 rest

instance : ∀ (l : Int) (xs : List (Int × Int)), Decidable (ChainFrom l xs)
  | _, [] => .isTrue trivial
  | l, s :: rest =>
    have : Decidable (ChainFrom s.2 rest) := instDecidableChainFrom s.2 rest
    inferInstanceAs (Decidable (_ ∧ _ ∧ _))

/-- The running bound after a list of emissions. -/
def chainEnd : Int → List (Int × Int) → Int
  | l, [] => l
  | _, s :: rest => chainEnd s.2 rest

/-! ## Boundary selection (stream.c, `check_gap` / `find_silence_in_segments` /
`find_chunk_boundary`, lines 253-365)

VAD intervals are pairs `(t0, t1)` in centiseconds as returned by the VAD
engine; `vad_offset` is the sample offset of the VAD window. -/

/-- `check_gap` (stream.c, lines 253-271): `-1` if the gap is too narrow or
does not intersect the search range, otherwise the gap midpoint clamped into
the range, converted from centiseconds to samples. -/
def check_gap (gap_start_cs gap_end_cs range_start_cs range_end_cs
    min_silence_ms : Int) : Int :=
  let gap_ms := (gap_end_cs - gap_start_cs) * 10
  if gap_ms < min_silence_ms then -1
  else if gap_start_cs ≥ range_end_cs ∨ gap_end_cs ≤ range_start_cs then -1
  else
    let gap_middle_cs := cdiv (gap_start_cs + gap_end_cs) 2
    let gap_middle_cs :=
      if gap_middle_cs < range_start_cs then range_start_cs else gap_middle_cs
    let gap_middle_cs :=
      if gap_middle_cs > range_end_cs then range_end_cs else gap_middle_cs
    cdiv (gap_middle_cs * WHISPER_SAMPLE_RATE) 100

/-- The `for` loop of `find_silence_in_segments` over the remaining intervals,
threading the end of the previous interval (`last_end = t1(i) + offset`).
`final_end` is `t1(n_segs-1) + offset`, used by the trailing check both when
the loop completes and when it hits the `break`. -/
def fsis_go (offcs rs re minsil final_end : Int) :
    Int → List (Int × Int) → Int
  | last_end, [] => check_gap last_end re rs re minsil
  | last_end, s :: rest =>
    let gap_end := s.1 + offcs
    if gap_end ≤ rs then fsis_go offcs rs re minsil final_end (s.2 + offcs) rest
    else if last_end ≥ re then check_gap final_end re rs re minsil
    else
      let pos := check_gap last_end gap_end rs re minsil
      if pos ≥ 0 then pos
      else fsis_go offcs rs re minsil final_end (s.2 + offcs) rest

/-- `find_silence_in_segments` (stream.c, lines 273-311). -/
def find_silence_in_segments (segs : List (Int × Int))
    (range_start_samples range_end_samples min_silence_ms vad_offset : Int) :
    Int :=
  match segs with
  | [] => -1
  | s0 :: rest =>
    let vad_offset_cs := cdiv (vad_offset * 100) WHISPER_SAMPLE_RATE
    let range_start_cs := cdiv (range_start_samples * 100) WHISPER_SAMPLE_RATE
    let range_end_cs := cdiv (range_end_samples * 100) WHISPER_SAMPLE_RATE
    let final_end := (rest.getLastD s0).2 + vad_offset_cs
    fsis_go vad_offset_cs range_start_cs range_end_cs min_silence_ms final_end
      (s0.2 + vad_offset_cs) rest

/-- `find_chunk_boundary` (stream.c, lines 338-365); `vad_segs = none` models
the NULL segments pointer.  (The `silence_found` out-parameter only feeds
logging and is not modelled.) -/
def find_chunk_boundary (min_chunk_samples max_chunk_samples min_silence_ms
    available : Int) (vad_segs : Option (List (Int × Int)))
    (vad_offset : Int) : Int :=
  let search_start := min_chunk_samples
  let search_end := min max_chunk_samples available
  if search_start ≥ search_end then search_end
  else
    match vad_segs with
    | none => search_start
    | some segs =>
      let silence_pos := find_silence_in_segments segs search_start search_end
        min_silence_ms vad_offset
      if silence_pos > 0 then silence_pos else search_end

/-! ### Specification-side view of the boundary selector (claim C2)

The claim describes the selector in terms of the list of gaps between
consecutive VAD intervals plus the trailing tail, searched in order for the
first gap that is wide enough and intersects the search range. -/

/-- The gaps between consecutive VAD intervals, then the trailing tail up to
`range_end_cs`; `last_end` is the (offset-adjusted) end of the previous
interval. -/
def vad_gaps (offcs re : Int) : Int → List (Int × Int) → List (Int × Int)
  | last_end, [] => [(last_end, re)]
  | last_end, s :: rest => (last_end, s.1 + offcs) :: vad_gaps offcs re (s.2 + offcs) rest

/-- All gaps (consecutive plus trailing) of a VAD interval list. -/
def gaps_of (offcs re : Int) (segs : List (Int × Int)) : List (Int × Int) :=
  match segs with
  | [] => []
  | s0 :: rest => vad_gaps offcs re (s0.2 + offcs) rest

/-- A gap qualifies when its width is at least `min_silence_ms` and it
intersects the (centisecond) search range. -/
def gap_qualifies (rs re minsil : Int) (g : Int × Int) : Bool :=
  minsil ≤ (g.2 - g.1) * 10 ∧ g.1 < re ∧ rs < g.2

/-- The cut position of a gap: its midpoint clamped into the search range,
converted from centiseconds to samples. -/
def gap_cut (rs re : Int) (g : Int × Int) : Int :=
  cdiv (min (max (cdiv (g.1 + g.2) 2) rs) re * WHISPER_SAMPLE_RATE) 100

/-- The boundary selector exactly as claim C2 words it: forced boundary,
then `search_start` without VAD, then the first qualifying gap's cut
position, else `search_end`. -/
def boundary_spec_claimed (min_chunk_samples max_chunk_samples min_silence_ms
    available : Int) (vad_segs : Option (List (Int × Int)))
    (vad_offset : Int) : Int :=
  let search_start := min_chunk_samples
  let search_end := min max_chunk_samples available
  if search_start ≥ search_end then search_end
  else
    match vad_segs with
    | none => search_start
    | some segs =>
      let offcs := cdiv (vad_offset * 100) WHISPER_SAMPLE_RATE
      let rs := cdiv (search_start * 100) WHISPER_SAMPLE_RATE
      let re := cdiv (search_end * 100) WHISPER_SAMPLE_RATE
      match (gaps_of offcs re segs).find? (gap_qualifies rs re min_silence_ms) with
      | some g => gap_cut rs re g
      | none => search_end

/-- The amended specification: identical to `boundary_spec_claimed` except
that a qualifying gap whose converted cut position is `0` falls back to
`search_end` (the code only accepts a strictly positive silence position). -/
def boundary_spec_amended (min_chunk_samples max_chunk_samples min_silence_ms
    available : Int) (vad_segs : Option (List (Int × Int)))
    (vad_offset : Int) : Int :=
  let search_start := min_chunk_samples
  let search_end := min max_chunk_samples available
  if search_start ≥ search_end then search_end
  else
    match vad_segs with
    | none => search_start
    | some segs =>
      let offcs := cdiv (vad_offset * 100) WHISPER_SAMPLE_RATE
      let rs := cdiv (search_start * 100) WHISPER_SAMPLE_RATE
      let re := cdiv (search_end * 100) WHISPER_SAMPLE_RATE
      match (gaps_of offcs re segs).find? (gap_qualifies rs re min_silence_ms) with
      | some g => if gap_cut rs re g > 0 then gap_cut rs re g else search_end
      | none => search_end

/-- Chained well-formedness of VAD intervals starting after time `le`:
intervals are ordered and non-crossing. -/
def SegChain : Int → List (Int × Int) → Prop
  | _, [] => True
  | le, s :: rest => le ≤ s.1 ∧ s.1 ≤ s.2 ∧ SegChain s.2 rest

instance : ∀ (le : Int) (xs : List (Int × Int)), Decidable (SegChain le xs)
  | _, [] => .isTrue trivial
  | _, s :: rest =>
    have : Decidable (SegChain s.2 rest) := instDecidableSegChain s.2 rest
    inferInstanceAs (Decidable (_ ∧ _ ∧ _))

/-- Sorted, non-crossing VAD intervals (as produced by the VAD engine). -/
def VadSorted : List (Int × Int) → Prop
  | [] => True
  | s0 :: rest => s0.1 ≤ s0.2 ∧ SegChain s0.2 rest

instance : ∀ (xs : List (Int × Int)), Decidable (VadSorted xs)
  | [] => .isTrue trivial
  | _ :: _ => inferInstanceAs (Decidable (_ ∧ _))

/-- Offset-adjusted form of `SegChain`, the shape threaded by `fsis_go`. -/
def SortedFromOff (offcs : Int) : Int → List (Int × Int) → Prop
  | _, [] => True
  | le, s :: rest =>
    le ≤ s.1 + offcs ∧ s.1 + offcs ≤ s.2 + offcs ∧
      SortedFromOff offcs (s.2 + offcs) rest

/-- The offset-adjusted end of the last interval, starting from `le`. -/
def lastEndOff (offcs : Int) : Int → List (Int × Int) → Int
  | le, [] => le
  | _, s :: rest => lastEndOff offcs (s.2 + offcs) rest

/-- Well-formedness of the optional VAD segments (NULL pointer or a sorted
interval list). -/
def VadOk : Option (List (Int × Int)) → Prop
  | none => True
  | some segs => VadSorted segs

instance : ∀ (v : Option (List (Int × Int))), Decidable (VadOk v)
  | none => .isTrue trivial
  | some _ => inferInstanceAs (Decidable (VadSorted _))

/-! ## The chunked stream loop (stream.c, lines 367-575 and 759-827)

Single-worker semantics (`single_thread` mode; in dual mode the same chunk
pipeline runs under the shared mutex, so the chunk-level state evolution is
identical).  External oracles: `readOf call_idx requested` is the producer
callback (`read_cb`), `vadOf chunk_idx` the VAD segmenter result for that
chunk, `engOf chunk_idx = (whisper_full_ret, host_abort)` the engine result
and the host abort-callback poll after the chunk. -/

/-- Stream configuration subset relevant to chunking (fields of
`common_ctx`). -/
structure StreamCfg where
  overlap_samples : Int
  min_chunk_samples : Int
  max_chunk_samples : Int
  min_silence_ms : Int
  deriving DecidableEq

/-- `struct chunk_info` (stream.c, lines 30-36). -/
structure chunk_info where
  chunk_samples : Int
  actual_chunk_samples : Int
  overlap_offset : Int
  time_offset : Int
  deriving DecidableEq

/-- `make_chunk_info` (stream.c, lines 367-382); `buffer_len` is the caller's
`buffer_len - overlap_offset` (the new content available). -/
def make_chunk_info (cfg : StreamCfg)
    (chunk_samples buffer_len overlap_offset total_samples : Int)
    (eof : Bool) : chunk_info :=
  let cs := if eof ∧ buffer_len - chunk_samples < cfg.min_chunk_samples
    then buffer_len else chunk_samples
  { chunk_samples := cs
    overlap_offset := overlap_offset
    actual_chunk_samples := cs + overlap_offset
    time_offset := cdiv (100 * (total_samples - overlap_offset))
      WHISPER_SAMPLE_RATE }

/-- `fill_read_buffer` (stream.c, lines 384-404).  The explicit fuel only
bounds the loop for structural recursion; every productive iteration grows
`len` by at least one, so `(target - len).toNat + 1` fuel is never
exhausted (see `fill_read_buffer_full`). Returns the new buffer length, the
EOF flag and the producer call counter. -/
def fill_read_buffer (readOf : Nat → Int → Int) (buffer_size target : Int) :
    Nat → Int → Bool → Nat → Int × Bool × Nat
  | 0, len, eof, calls => (len, eof, calls)
  | fuel + 1, len, eof, calls =>
    if len < target ∧ eof = false then
      let n := readOf calls (buffer_size - len)
      if n ≤ 0 then (len, true, calls + 1)
      else fill_read_buffer readOf buffer_size target fuel (len + n) false
        (calls + 1)
    else (len, eof, calls)

/-- Everything recorded about one processed chunk. -/
structure ChunkRec where
  idx : Nat
  samples_before : Int
  overlap_offset : Int
  boundary : Int
  available : Int
  chunk_samples : Int
  actual_chunk_samples : Int
  time_offset : Int
  eofLocal : Bool
  deriving DecidableEq

/-- The chunk-level shared state (`common_ctx` fields mutated by the loop). -/
structure RunState where
  buffer_len : Int
  total : Int
  next_idx : Nat
  eof_flag : Bool
  abort : Bool
  calls : Nat
  deriving DecidableEq

/-- Initial state set up by `init_common_ctx` (stream.c, lines 673-721). -/
def init_run_state : RunState :=
  { buffer_len := 0, total := 0, next_idx := 0, eof_flag := false,
    abort := false, calls := 0 }

/-- One call of `process_one_chunk` (stream.c, lines 486-620), without the
engine internals: returns the chunk record (if a chunk was processed), the
new state, and the function's return value (`-1` end-of-stream, `0`
continue, the nonzero `whisper_full` result on engine failure). -/
def chunk_step (cfg : StreamCfg) (readOf : Nat → Int → Int)
    (vad : Option (List (Int × Int))) (eng : Int × Bool) (st : RunState) :
    Option ChunkRec × RunState × Int :=
  if st.eof_flag then (none, st, -1)
  else
    let target := cfg.max_chunk_samples + cfg.overlap_samples
    let overlap_offset := if st.next_idx > 0 then cfg.overlap_samples else 0
    let fr := fill_read_buffer readOf target target
      ((target - st.buffer_len).toNat + 1) st.buffer_len false st.calls
    let buffer_len := fr.1
    let eofL := fr.2.1
    let calls := fr.2.2
    if buffer_len ≤ overlap_offset then
      (none,
        { st with buffer_len := buffer_len, calls := calls, eof_flag := true },
        -1)
    else
      let available := buffer_len - overlap_offset
      let vad_start := if vad.isSome then
        max 0 (cfg.min_chunk_samples - 5 * WHISPER_SAMPLE_RATE) else 0
      let b := find_chunk_boundary cfg.min_chunk_samples cfg.max_chunk_samples
        cfg.min_silence_ms available vad vad_start
      let ci := make_chunk_info cfg b available overlap_offset st.total eofL
      let keep_start := max 0 (ci.actual_chunk_samples - cfg.overlap_samples)
      let keep_len := buffer_len - keep_start
      let r : ChunkRec :=
        { idx := st.next_idx, samples_before := st.total,
          overlap_offset := overlap_offset, boundary := b,
          available := available, chunk_samples := ci.chunk_samples,
          actual_chunk_samples := ci.actual_chunk_samples,
          time_offset := ci.time_offset, eofLocal := eofL }
      let st' : RunState :=
        { buffer_len := if keep_len > 0 then keep_len else 0,
          total := st.total + ci.chunk_samples,
          next_idx := st.next_idx + 1,
          eof_flag := eofL ∧ keep_len ≤ cfg.overlap_samples,
          abort := st.abort, calls := calls }
      if eng.1 ≠ 0 ∨ eng.2 = true then
        (some r, { st' with eof_flag := true, abort := true }, eng.1)
      else (some r, st', 0)

/-- The `while (process_one_chunk(tctx) == 0)` loop of `whisper_stream_full`,
with explicit fuel (`none` = fuel exhausted before the stream ended).
Returns the final state and the records of all processed chunks. -/
def run_loop (cfg : StreamCfg) (readOf : Nat → Int → Int)
    (vadOf : Nat → Option (List (Int × Int))) (engOf : Nat → Int × Bool) :
    Nat → RunState → Option (RunState × List ChunkRec)
  | 0, _ => none
  | fuel + 1, st =>
    match chunk_step cfg readOf (vadOf st.next_idx) (engOf st.next_idx) st with
    | (orec, st', pret) =>
      if pret = 0 then
        match run_loop cfg readOf vadOf engOf fuel st' with
        | none => none
        | some (stf, recs) =>
          some (stf, match orec with | some r => r :: recs | none => recs)
      else
        some (st', match orec with | some r => [r] | none => [])

/-- `whisper_stream_full` (stream.c, lines 759-827): `-1` if an
initialization allocation fails, otherwise `-1` exactly when the run ends
with the abort flag set, else `0`. -/
def whisper_stream_full_model (alloc_ok : Bool) (cfg : StreamCfg)
    (readOf : Nat → Int → Int) (vadOf : Nat → Option (List (Int × Int)))
    (engOf : Nat → Int × Bool) (fuel : Nat) : Option Int :=
  if alloc_ok = false then some (-1)
  else (run_loop cfg readOf vadOf engOf fuel init_run_state).map
    (fun p => if p.1.abort then -1 else 0)

/-- The suffix of the ring buffer kept by `handoff_to_next` (stream.c, lines
450-483): samples from `keep_start = max(0, actual - overlap)` on are moved
to the front; a non-positive `keep_len` empties the buffer, which
`List.drop` models for free. -/
def handoff_retained (buf : List α) (actual overlap : Int) : List α :=
  buf.drop (max 0 (actual - overlap)).toNat

/-- Sum of the `chunk_samples` of a record list. -/
def sumChunks (recs : List ChunkRec) : Int :=
  (recs.map ChunkRec.chunk_samples).sum

/-! ## Context hand-off (stream.c, `copy_tokens`, lines 170-195) and the
JNI layer (jni.c). -/

/-- `copy_tokens`: the token count is capped at `max_tokens`; a language
callback value other than `-1` that differs from the inherited `lang_id`
overrides the language and discards the inherited tokens.  Returns the
tokens written to the engine's buffer and the language id passed out;
`language_cb = none` models a NULL callback. -/
def copy_tokens (tokens : List Int) (lang_id : Int) (max_tokens : Int)
    (language_cb : Option Int) : List Int × Int :=
  let n : Int := min (tokens.length : Int) max_tokens
  let res : Int × Int :=
    match language_cb with
    | none => (n, lang_id)
    | some override =>
      if override ≠ -1 ∧ override ≠ lang_id then (0, override)
      else (n, lang_id)
  (tokens.take res.1.toNat, res.2)

/-- `UINT_MAX + 1`: the session counter is a C `unsigned int`. -/
def SESSION_MOD : Nat := 4294967296

/-- `nativeStop` (jni.c, lines 1113-1125): atomically increments the session
counter. -/
def nativeStop (session_id : Nat) : Nat := (session_id + 1) % SESSION_MOD

/-- End of `process_start_command` (jni.c, lines 725-739): the
`stream_complete` event delivered to the host after `whisper_stream_full`
returns, if any (`was_stopped` suppresses it). -/
def stream_complete_event (start_session_id session_after : Nat)
    (result : Int) : Option Bool :=
  if start_session_id ≠ session_after then none else some (decide (result = 0))

/-- `nativeSetDuration` (jni.c, lines 1127-1140). -/
def nativeSetDuration (duration_ms : Int) : Int :=
  cdiv (duration_ms * WHISPER_SAMPLE_RATE) 1000

/-- `jni_progress_callback` (jni.c, lines 619-641): `none` when no overall
progress value is delivered to the host. -/
def jni_progress_callback (chunk_progress samples_before chunk_samples
    duration_samples : Int) : Option Int :=
  if duration_samples ≤ 0 then none
  else
    let samples_done :=
      samples_before + cdiv (chunk_progress * chunk_samples) 100
    let overall := cdiv (samples_done * 100) duration_samples
    some (if overall > 100 then 100 else overall)

/-- The initial (and reset) value of `lang_override` (jni.c, lines 677 and
819). -/
def jni_lang_override_init : Int := -1

/-- `nativeUpdateLanguage` (jni.c, lines 1142-1164): the value stored into
`lang_override`; `whisper_lang_id` is the external language lookup, and a
null `language` string resets the override to `-1`. -/
def nativeUpdateLanguage (whisper_lang_id : α → Int)
    (language : Option α) : Int :=
  match language with
  | none => -1
  | some s => whisper_lang_id s


theorem ite_lt_max (a b : Int) : (if a < b then b else a) = max a b := by
  rcases le_or_lt b a with h | h
  · rw [if_neg (not_lt.mpr h), max_eq_left h]
  · rw [if_pos h, max_eq_right h.le]

theorem ite_gt_min (a b : Int) : (if a > b then b else a) = min a b := by
  rcases le_or_lt a b with h | h
  · rw [if_neg (not_lt.mpr h), min_eq_left h]
  · rw [if_pos h, min_eq_right h.le]

/-- The sequential clamps of `stream_segment_callback` are exactly the
max/min normal form used in the specification. -/
theorem clip_segment_eq (off os cs l a b : Int) :
    clip_segment off os cs l a b =
      (let t0 := max (max (a + off) os) l
       let t1 := min (b + off) (off + cdiv (cs * 100) WHISPER_SAMPLE_RATE)
       if t0 ≥ t1 then (none, l) else (some (t0, t1), t1)) := by
  simp only [clip_segment, ite_lt_max, ite_gt_min]

theorem clip_segment_none {off os cs l a b : Int} {l' : Int}
    (h : clip_segment off os cs l a b = (none, l')) : l' = l := by
  rw [clip_segment_eq] at h
  dsimp only at h
  split at h
  · exact (Prod.mk.injEq _ _ _ _ ▸ h).2.symm
  · simp at h

theorem clip_segment_some {off os cs l a b : Int} {s : Int × Int} {l' : Int}
    (h : clip_segment off os cs l a b = (some s, l')) :
    l ≤ s.1 ∧ s.1 < s.2 ∧ l' = s.2 := by
  rw [clip_segment_eq] at h
  dsimp only at h
  split at h
  · simp at h
  · rename_i hlt
    rw [Prod.mk.injEq, Option.some.injEq] at h
    obtain ⟨rfl, rfl⟩ := h
    exact ⟨le_max_right _ _, lt_of_not_ge hlt, rfl⟩

theorem emit_chunk_segments_props (off os cs : Int) :
    ∀ (raw : List (Int × Int)) (l : Int),
      ChainFrom l (emit_chunk_segments off os cs l raw).1 ∧
      (emit_chunk_segments off os cs l raw).2 =
        chainEnd l (emit_chunk_segments off os cs l raw).1
  | [], l => ⟨trivial, rfl⟩
  | (a, b) :: rest, l => by
    rw [emit_chunk_segments]
    rcases hclip : clip_segment off os cs l a b with ⟨o, l'⟩
    cases o with
    | none =>
      rw [clip_segment_none hclip]
      exact emit_chunk_segments_props off os cs rest l
    | some s =>
      obtain ⟨h1, h2, rfl⟩ := clip_segment_some hclip
      have ih := emit_chunk_segments_props off os cs rest s.2
      exact ⟨⟨h1, h2, ih.1⟩, ih.2⟩

theorem chainEnd_append (l : Int) (xs ys : List (Int × Int)) :
    chainEnd l (xs ++ ys) = chainEnd (chainEnd l xs) ys := by
  induction xs generalizing l with
  | nil => rfl
  | cons s rest ih =>
    simp only [List.cons_append, chainEnd]
    exact ih s.2

theorem ChainFrom_append {l : Int} {xs ys : List (Int × Int)}
    (h1 : ChainFrom l xs) (h2 : ChainFrom (chainEnd l xs) ys) :
    ChainFrom l (xs ++ ys) := by
  induction xs generalizing l with
  | nil => exact h2
  | cons s rest ih =>
    obtain ⟨ha, hb, hc⟩ := h1
    exact ⟨ha, hb, ih hc h2⟩

theorem emit_stream_segments_props :
    ∀ (runs : List ((Int × Int × Int) × List (Int × Int))) (l : Int),
      ChainFrom l (emit_stream_segments l runs).1 ∧
      (emit_stream_segments l runs).2 =
        chainEnd l (emit_stream_segments l runs).1
  | [], _ => ⟨trivial, rfl⟩
  | (c, raw) :: rest, l => by
    rw [emit_stream_segments]
    have hc := emit_chunk_segments_props c.1 c.2.1 c.2.2 raw l
    have ih := emit_stream_segments_props rest
        (emit_chunk_segments c.1 c.2.1 c.2.2 l raw).2
    refine ⟨ChainFrom_append hc.1 ?_, ?_⟩
    · rw [← hc.2]; exact ih.1
    · rw [chainEnd_append, ← hc.2]; exact ih.2

theorem ChainFrom_chain' {l : Int} {xs : List (Int × Int)} (h : ChainFrom l xs) :
    List.Chain' (fun p q : Int × Int => p.1 ≤ q.1 ∧ p.2 ≤ q.2) xs := by
  induction xs generalizing l with
  | nil => exact List.chain'_nil
  | cons s rest ih =>
    obtain ⟨_, hb, hc⟩ := h
    cases rest with
    | nil => simp
    | cons t rest' =>
      exact List.Chain'.cons ⟨le_trans hb.le hc.1, le_trans hc.1 hc.2.1.le⟩ (ih hc)

theorem ChainFrom_pos {l : Int} {xs : List (Int × Int)} (h : ChainFrom l xs) :
    ∀ s ∈ xs, s.1 < s.2 := by
  induction xs generalizing l with
  | nil => intro s hs; cases hs
  | cons t rest ih =>
    obtain ⟨_, hb, hc⟩ := h
    intro s hs
    rcases List.mem_cons.mp hs with rfl | hs'
    · exact hb
    · exact ih hc s hs'

theorem check_gap_of_narrow {g0 g1 rs re ms : Int} (h : (g1 - g0) * 10 < ms) :
    check_gap g0 g1 rs re ms = -1 := by
  unfold check_gap
  rw [if_pos h]

theorem check_gap_of_no_intersect {g0 g1 rs re ms : Int}
    (h : g0 ≥ re ∨ g1 ≤ rs) : check_gap g0 g1 rs re ms = -1 := by
  by_cases hw : (g1 - g0) * 10 < ms
  · exact check_gap_of_narrow hw
  · simp only [check_gap]
    rw [if_neg hw, if_pos h]

theorem check_gap_of_qual {g0 g1 rs re ms : Int} (hw : ms ≤ (g1 - g0) * 10)
    (h1 : g0 < re) (h2 : rs < g1) :
    check_gap g0 g1 rs re ms = gap_cut rs re (g0, g1) := by
  unfold check_gap
  rw [if_neg (not_lt.mpr hw), if_neg (by push_neg; exact ⟨h1, h2⟩)]
  simp only [ite_lt_max, ite_gt_min, gap_cut]

theorem gap_cut_nonneg {rs re : Int} (h0 : 0 ≤ rs) (hrre : rs ≤ re)
    (g : Int × Int) : 0 ≤ gap_cut rs re g := by
  unfold gap_cut cdiv
  have hm : (0 : Int) ≤ min (max (cdiv (g.1 + g.2) 2) rs) re :=
    le_min (le_trans h0 (le_max_right _ _)) (le_trans h0 hrre)
  exact Int.tdiv_nonneg
    (mul_nonneg hm (by norm_num [WHISPER_SAMPLE_RATE])) (by norm_num)

theorem gap_cut_le {rs re : Int} (h0 : 0 ≤ rs) (hrre : rs ≤ re)
    (g : Int × Int) : gap_cut rs re g ≤ re * 160 := by
  unfold gap_cut cdiv
  have hm : min (max (cdiv (g.1 + g.2) 2) rs) re ≤ re := min_le_right _ _
  have hmn : (0 : Int) ≤ min (max (cdiv (g.1 + g.2) 2) rs) re :=
    le_min (le_trans h0 (le_max_right _ _)) (le_trans h0 hrre)
  have : min (max (cdiv (g.1 + g.2) 2) rs) re * WHISPER_SAMPLE_RATE ≤ re * 16000 := by
    rw [WHISPER_SAMPLE_RATE]
    exact mul_le_mul_of_nonneg_right hm (by norm_num)
  calc (min (max (cdiv (g.1 + g.2) 2) rs) re * WHISPER_SAMPLE_RATE).tdiv 100
      = min (max (cdiv (g.1 + g.2) 2) rs) re * 160 := by
        rw [WHISPER_SAMPLE_RATE]
        rw [show ∀ x : Int, x * 16000 = x * 160 * 100 from fun x => by ring]
        exact Int.mul_tdiv_cancel _ (by norm_num)
    _ ≤ re * 160 := mul_le_mul_of_nonneg_right hm (by norm_num)

theorem gap_cut_ge {rs re : Int} (h0 : 0 ≤ rs) (hrre : rs ≤ re)
    (g : Int × Int) : rs * 160 ≤ gap_cut rs re g := by
  unfold gap_cut cdiv
  have hm : rs ≤ min (max (cdiv (g.1 + g.2) 2) rs) re :=
    le_min (le_max_right _ _) hrre
  calc rs * 160 ≤ min (max (cdiv (g.1 + g.2) 2) rs) re * 160 :=
        mul_le_mul_of_nonneg_right hm (by norm_num)
    _ = (min (max (cdiv (g.1 + g.2) 2) rs) re * WHISPER_SAMPLE_RATE).tdiv 100 := by
        rw [WHISPER_SAMPLE_RATE]
        rw [show ∀ x : Int, x * 16000 = x * 160 * 100 from fun x => by ring]
        exact (Int.mul_tdiv_cancel _ (by norm_num)).symm

theorem le_lastEndOff (offcs : Int) :
    ∀ (rest : List (Int × Int)) (le : Int), SortedFromOff offcs le rest →
      le ≤ lastEndOff offcs le rest
  | [], _, _ => le_refl _
  | s :: rest, le, h =>
    le_trans (le_trans h.1 h.2.1) (le_lastEndOff offcs rest (s.2 + offcs) h.2.2)

theorem vad_gaps_start_ge (offcs re : Int) :
    ∀ (rest : List (Int × Int)) (le : Int), SortedFromOff offcs le rest →
      ∀ g ∈ vad_gaps offcs re le rest, le ≤ g.1
  | [], le, _ => by
    intro g hg
    rw [vad_gaps, List.mem_singleton] at hg
    subst hg
    exact le_refl _
  | s :: rest, le, h => by
    intro g hg
    rw [vad_gaps, List.mem_cons] at hg
    rcases hg with rfl | hg'
    · exact le_refl _
    · exact le_trans (le_trans h.1 h.2.1)
        (vad_gaps_start_ge offcs re rest (s.2 + offcs) h.2.2 g hg')

theorem fsis_go_eq_find {offcs rs re minsil : Int} (h0 : 0 ≤ rs)
    (hrre : rs ≤ re) :
    ∀ (rest : List (Int × Int)) (last_end : Int),
      SortedFromOff offcs last_end rest →
      fsis_go offcs rs re minsil (lastEndOff offcs last_end rest) last_end rest =
        (match (vad_gaps offcs re last_end rest).find?
            (gap_qualifies rs re minsil) with
        | some g => gap_cut rs re g
        | none => -1)
  | [], last_end, _ => by
    simp only [fsis_go, vad_gaps, lastEndOff]
    by_cases hq : gap_qualifies rs re minsil (last_end, re) = true
    · rw [List.find?_singleton, if_pos hq]
      simp only [gap_qualifies, decide_eq_true_eq] at hq
      exact check_gap_of_qual hq.1 hq.2.1 hq.2.2
    · rw [List.find?_singleton, if_neg hq]
      simp only [gap_qualifies, decide_eq_true_eq, not_and_or, not_le, not_lt] at hq
      rcases hq with hw | hi | hi
      · exact check_gap_of_narrow hw
      · exact check_gap_of_no_intersect (Or.inl hi)
      · exact check_gap_of_no_intersect (Or.inr hi)
  | s :: rest, last_end, h => by
    simp only [fsis_go, vad_gaps, lastEndOff]
    by_cases hskip : s.1 + offcs ≤ rs
    · rw [if_pos hskip]
      have hq : gap_qualifies rs re minsil (last_end, s.1 + offcs) = false := by
        simp only [gap_qualifies, decide_eq_false_iff_not, not_and_or, not_lt]
        exact Or.inr (Or.inr hskip)
      rw [List.find?_cons_of_neg _ (by simp [hq])]
      exact fsis_go_eq_find h0 hrre rest (s.2 + offcs) h.2.2
    · rw [if_neg hskip]
      by_cases hbrk : last_end ≥ re
      · rw [if_pos hbrk]
        have hfe : re ≤ lastEndOff offcs (s.2 + offcs) rest :=
          le_trans (le_trans hbrk (le_trans h.1 h.2.1))
            (le_lastEndOff offcs rest (s.2 + offcs) h.2.2)
        rw [check_gap_of_no_intersect (Or.inl hfe)]
        have hq : gap_qualifies rs re minsil (last_end, s.1 + offcs) = false := by
          simp only [gap_qualifies, decide_eq_false_iff_not, not_and_or, not_lt]
          exact Or.inr (Or.inl hbrk)
        rw [List.find?_cons_of_neg _ (by simp [hq])]
        have hnone : (vad_gaps offcs re (s.2 + offcs) rest).find?
            (gap_qualifies rs re minsil) = none := by
          rw [List.find?_eq_none]
          intro g hg
          have hge := vad_gaps_start_ge offcs re rest (s.2 + offcs) h.2.2 g hg
          simp only [gap_qualifies, Bool.not_eq_true, decide_eq_false_iff_not,
            not_and_or, not_lt]
          exact Or.inr (Or.inl (le_trans (le_trans hbrk (le_trans h.1 h.2.1)) hge))
        rw [hnone]
      · rw [if_neg hbrk]
        push_neg at hbrk hskip
        by_cases hw : minsil ≤ (s.1 + offcs - last_end) * 10
        · have hpos := check_gap_of_qual hw hbrk hskip
          rw [hpos, if_pos (gap_cut_nonneg h0 hrre _)]
          have hq : gap_qualifies rs re minsil (last_end, s.1 + offcs) = true := by
            simp only [gap_qualifies, decide_eq_true_eq]
            exact ⟨hw, hbrk, hskip⟩
          rw [List.find?_cons_of_pos _ hq]
        · push_neg at hw
          rw [check_gap_of_narrow hw, if_neg (by norm_num)]
          have hq : gap_qualifies rs re minsil (last_end, s.1 + offcs) = false := by
            simp only [gap_qualifies, decide_eq_false_iff_not, not_and_or, not_le]
            exact Or.inl hw
          rw [List.find?_cons_of_neg _ (by simp [hq])]
          exact fsis_go_eq_find h0 hrre rest (s.2 + offcs) h.2.2

theorem SegChain_toOff (offcs : Int) :
    ∀ (rest : List (Int × Int)) (le : Int), SegChain le rest →
      SortedFromOff offcs (le + offcs) rest
  | [], _, _ => trivial
  | s :: rest, le, h =>
    ⟨add_le_add_right h.1 offcs, add_le_add_right h.2.1 offcs,
      SegChain_toOff offcs rest s.2 h.2.2⟩

theorem lastEndOff_getLastD (offcs : Int) :
    ∀ (rest : List (Int × Int)) (s0 : Int × Int),
      lastEndOff offcs (s0.2 + offcs) rest = (rest.getLastD s0).2 + offcs
  | [], _ => rfl
  | t :: rest, s0 => by
    simp only [lastEndOff, List.getLastD_cons]
    exact lastEndOff_getLastD offcs rest t

theorem find_silence_eq_find {ss se minsil voff : Int}
    (h0 : 0 ≤ cdiv (ss * 100) WHISPER_SAMPLE_RATE)
    (hrre : cdiv (ss * 100) WHISPER_SAMPLE_RATE ≤
      cdiv (se * 100) WHISPER_SAMPLE_RATE)
    (segs : List (Int × Int)) (hs : VadSorted segs) :
    find_silence_in_segments segs ss se minsil voff =
      (match (gaps_of (cdiv (voff * 100) WHISPER_SAMPLE_RATE)
          (cdiv (se * 100) WHISPER_SAMPLE_RATE) segs).find?
          (gap_qualifies (cdiv (ss * 100) WHISPER_SAMPLE_RATE)
            (cdiv (se * 100) WHISPER_SAMPLE_RATE) minsil) with
      | some g => gap_cut (cdiv (ss * 100) WHISPER_SAMPLE_RATE)
          (cdiv (se * 100) WHISPER_SAMPLE_RATE) g
      | none => -1) := by
  cases segs with
  | nil => rfl
  | cons s0 rest =>
    simp only [find_silence_in_segments, gaps_of]
    rw [← lastEndOff_getLastD]
    exact fsis_go_eq_find h0 hrre rest (s0.2 + _)
      (SegChain_toOff _ rest s0.2 hs.2)

/-- C2 (amended): under sorted VAD intervals, the boundary selector behaves
exactly as the claim words it, except that a qualifying gap whose converted
midpoint is sample position 0 falls back to `search_end`. -/
theorem C2_boundary_selector_amended (min_chunk_samples max_chunk_samples
    min_silence_ms available voff : Int)
    (vad_segs : Option (List (Int × Int)))
    (hmc : 0 ≤ min_chunk_samples) (hs : VadOk vad_segs) :
    find_chunk_boundary min_chunk_samples max_chunk_samples min_silence_ms
        available vad_segs voff =
      boundary_spec_amended min_chunk_samples max_chunk_samples min_silence_ms
        available vad_segs voff := by
  simp only [find_chunk_boundary, boundary_spec_amended]
  by_cases hforce : min_chunk_samples ≥ min max_chunk_samples available
  · rw [if_pos hforce, if_pos hforce]
  · rw [if_neg hforce, if_neg hforce]
    push_neg at hforce
    cases vad_segs with
    | none => rfl
    | some segs =>
      dsimp only
      have h0 : 0 ≤ cdiv (min_chunk_samples * 100) WHISPER_SAMPLE_RATE :=
        Int.tdiv_nonneg (mul_nonneg hmc (by norm_num))
          (by norm_num [WHISPER_SAMPLE_RATE])
      have hse : (0 : Int) ≤ min max_chunk_samples available :=
        (lt_of_le_of_lt hmc hforce).le
      have hrre : cdiv (min_chunk_samples * 100) WHISPER_SAMPLE_RATE ≤
          cdiv (min max_chunk_samples available * 100) WHISPER_SAMPLE_RATE := by
        unfold cdiv
        rw [Int.tdiv_eq_ediv (mul_nonneg hmc (by norm_num))
              (by norm_num [WHISPER_SAMPLE_RATE]),
            Int.tdiv_eq_ediv (mul_nonneg hse (by norm_num))
              (by norm_num [WHISPER_SAMPLE_RATE])]
        exact Int.ediv_le_ediv (by norm_num [WHISPER_SAMPLE_RATE])
          (mul_le_mul_of_nonneg_right hforce.le (by norm_num))
      rw [find_silence_eq_find h0 hrre segs hs]
      cases hfind : (gaps_of (cdiv (voff * 100) WHISPER_SAMPLE_RATE)
          (cdiv (min max_chunk_samples available * 100) WHISPER_SAMPLE_RATE)
          segs).find?
          (gap_qualifies (cdiv (min_chunk_samples * 100) WHISPER_SAMPLE_RATE)
            (cdiv (min max_chunk_samples available * 100) WHISPER_SAMPLE_RATE)
            min_silence_ms) with
      | none => norm_num
      | some g => rfl

/-- C2 witness: a concrete sorted two-interval input on which the amended
equivalence is instantiated (the selected boundary is the converted clamped
gap midpoint, 160 samples). -/
theorem C2_boundary_selector_amended_witness :
    (0 : Int) ≤ 160 ∧ VadOk (some [((0 : Int), (0 : Int)), (2, 10)]) ∧
    find_chunk_boundary 160 1600 20 1600 (some [(0, 0), (2, 10)]) 0 =
      boundary_spec_amended 160 1600 20 1600 (some [(0, 0), (2, 10)]) 0 ∧
    find_chunk_boundary 160 1600 20 1600 (some [(0, 0), (2, 10)]) 0 = 160 :=
  ⟨by decide, by decide,
    C2_boundary_selector_amended 160 1600 20 1600 0
      (some [(0, 0), (2, 10)]) (by decide) (by decide),
    by decide⟩

/-- C2 counterexample to the claim as stated: with `search_start = 0`,
`search_end = 300` and a VAD interval ending at time 0, the trailing gap
`[0cs, 1cs]` qualifies (width 10 ms ≥ 10 ms, intersecting the range) and its
clamped midpoint converts to sample 0, which the claim says is returned; the
code instead returns `search_end = 300`. -/
theorem C2_counterexample :
    VadOk (some [((0 : Int), (0 : Int))]) ∧
    find_chunk_boundary 0 300 10 300 (some [(0, 0)]) 0 = 300 ∧
    boundary_spec_claimed 0 300 10 300 (some [(0, 0)]) 0 = 0 ∧
    find_chunk_boundary 0 300 10 300 (some [(0, 0)]) 0 ≠
      boundary_spec_claimed 0 300 10 300 (some [(0, 0)]) 0 := by
  refine ⟨by decide, by decide, by decide, by decide⟩

theorem fill_read_buffer_full {readOf : Nat → Int → Int}
    {buffer_size target : Int} :
    ∀ (fuel : Nat) (len : Int) (eof : Bool) (calls : Nat),
      (target - len).toNat < fuel →
      (fill_read_buffer readOf buffer_size target fuel len eof calls).2.1
        = false →
      target ≤ (fill_read_buffer readOf buffer_size target fuel len eof calls).1
  | 0, len, eof, calls, hfuel, _ => by omega
  | fuel + 1, len, eof, calls, hfuel, hres => by
    rw [fill_read_buffer] at hres ⊢
    by_cases hgo : len < target ∧ eof = false
    · rw [if_pos hgo] at hres ⊢
      by_cases hn : readOf calls (buffer_size - len) ≤ 0
      · rw [if_pos hn] at hres
        exact absurd hres (by simp)
      · rw [if_neg hn] at hres ⊢
        push_neg at hn
        exact fill_read_buffer_full fuel _ false (calls + 1)
          (by omega) hres
    · rw [if_neg hgo] at hres ⊢
      rcases not_and_or.mp hgo with h | h
      · exact not_lt.mp h
      · exact absurd hres (by simpa using h)

theorem fill_read_buffer_le {readOf : Nat → Int → Int}
    {buffer_size target : Int} (hbound : ∀ c m, readOf c m ≤ m) :
    ∀ (fuel : Nat) (len : Int) (eof : Bool) (calls : Nat),
      len ≤ buffer_size →
      (fill_read_buffer readOf buffer_size target fuel len eof calls).1 ≤
        buffer_size
  | 0, len, _, _, hlen => hlen
  | fuel + 1, len, eof, calls, hlen => by
    rw [fill_read_buffer]
    by_cases hgo : len < target ∧ eof = false
    · rw [if_pos hgo]
      by_cases hn : readOf calls (buffer_size - len) ≤ 0
      · rw [if_pos hn]; exact hlen
      · rw [if_neg hn]
        exact fill_read_buffer_le hbound fuel _ false (calls + 1)
          (by have := hbound calls (buffer_size - len); omega)
    · rw [if_neg hgo]; exact hlen

theorem fill_read_buffer_ge (readOf : Nat → Int → Int)
    (buffer_size target : Int) :
    ∀ (fuel : Nat) (len : Int) (eof : Bool) (calls : Nat),
      len ≤ (fill_read_buffer readOf buffer_size target fuel len eof calls).1
  | 0, _, _, _ => le_refl _
  | fuel + 1, len, eof, calls => by
    rw [fill_read_buffer]
    by_cases hgo : len < target ∧ eof = false
    · rw [if_pos hgo]
      by_cases hn : readOf calls (buffer_size - len) ≤ 0
      · rw [if_pos hn]
      · rw [if_neg hn]
        have := fill_read_buffer_ge readOf buffer_size target fuel
          (len + readOf calls (buffer_size - len)) false (calls + 1)
        omega
    · rw [if_neg hgo]

theorem chunk_step_some_spec {cfg : StreamCfg} {readOf : Nat → Int → Int}
    {vad : Option (List (Int × Int))} {eng : Int × Bool} {st : RunState}
    {r : ChunkRec} {st' : RunState} {pret : Int}
    (h : chunk_step cfg readOf vad eng st = (some r, st', pret)) :
    r.idx = st.next_idx ∧
    r.samples_before = st.total ∧
    r.overlap_offset = (if st.next_idx > 0 then cfg.overlap_samples else 0) ∧
    r.actual_chunk_samples = r.chunk_samples + r.overlap_offset ∧
    r.time_offset = cdiv (100 * (r.samples_before - r.overlap_offset))
      WHISPER_SAMPLE_RATE ∧
    r.chunk_samples = (if r.eofLocal = true ∧
        r.available - r.boundary < cfg.min_chunk_samples
      then r.available else r.boundary) ∧
    r.boundary = find_chunk_boundary cfg.min_chunk_samples
      cfg.max_chunk_samples cfg.min_silence_ms r.available vad
      (if vad.isSome then max 0 (cfg.min_chunk_samples - 5 * WHISPER_SAMPLE_RATE)
        else 0) ∧
    0 < r.available ∧
    st'.total = st.total + r.chunk_samples ∧
    st'.next_idx = st.next_idx + 1 ∧
    (st'.abort = true ↔ (st.abort = true ∨ eng.1 ≠ 0 ∨ eng.2 = true)) ∧
    (pret = 0 ↔ eng.1 = 0) := by
  unfold chunk_step at h
  by_cases h1 : st.eof_flag
  · rw [if_pos h1] at h
    simp at h
  · rw [if_neg h1] at h
    dsimp only at h
    set ovoff := (if st.next_idx > 0 then cfg.overlap_samples else 0) with hov
    set F := fill_read_buffer readOf
      (cfg.max_chunk_samples + cfg.overlap_samples)
      (cfg.max_chunk_samples + cfg.overlap_samples)
      ((cfg.max_chunk_samples + cfg.overlap_samples - st.buffer_len).toNat + 1)
      st.buffer_len false st.calls with hF
    by_cases hbl : F.1 ≤ ovoff
    · rw [if_pos hbl] at h
      simp at h
    · rw [if_neg hbl] at h
      push_neg at hbl
      by_cases hdirty : eng.1 ≠ 0 ∨ eng.2 = true
      · rw [if_pos hdirty] at h
        rw [Prod.mk.injEq, Prod.mk.injEq, Option.some.injEq] at h
        obtain ⟨rfl, rfl, rfl⟩ := h
        refine ⟨rfl, rfl, rfl, rfl, rfl, ?_, rfl, ?_, ?_, rfl, ?_, Iff.rfl⟩
        · simp only [make_chunk_info]
        · dsimp only
          omega
        · simp only [make_chunk_info]
        · exact ⟨fun _ => Or.inr hdirty, fun _ => rfl⟩
      · rw [if_neg hdirty] at h
        push_neg at hdirty
        rw [Prod.mk.injEq, Prod.mk.injEq, Option.some.injEq] at h
        obtain ⟨rfl, rfl, rfl⟩ := h
        refine ⟨rfl, rfl, rfl, rfl, rfl, ?_, rfl, ?_, ?_, rfl, ?_, ?_⟩
        · simp only [make_chunk_info]
        · dsimp only
          omega
        · simp only [make_chunk_info]
        · constructor
          · intro hab
            exact Or.inl hab
          · rintro (hab | hne | hht)
            · exact hab
            · exact absurd hdirty.1 hne
            · exact absurd hht hdirty.2
        · exact ⟨fun _ => hdirty.1, fun _ => rfl⟩

theorem chunk_step_abort_of_none {cfg : StreamCfg} {readOf : Nat → Int → Int}
    {vad : Option (List (Int × Int))} {eng : Int × Bool} {st : RunState}
    {st' : RunState} {pret : Int}
    (h : chunk_step cfg readOf vad eng st = (none, st', pret)) :
    st'.abort = st.abort ∧ pret = -1 := by
  unfold chunk_step at h
  by_cases h1 : st.eof_flag
  · rw [if_pos h1] at h
    rw [Prod.mk.injEq, Prod.mk.injEq] at h
    obtain ⟨-, rfl, rfl⟩ := h
    exact ⟨rfl, rfl⟩
  · rw [if_neg h1] at h
    dsimp only at h
    set ovoff := (if st.next_idx > 0 then cfg.overlap_samples else 0) with hov
    set F := fill_read_buffer readOf
      (cfg.max_chunk_samples + cfg.overlap_samples)
      (cfg.max_chunk_samples + cfg.overlap_samples)
      ((cfg.max_chunk_samples + cfg.overlap_samples - st.buffer_len).toNat + 1)
      st.buffer_len false st.calls with hF
    by_cases hbl : F.1 ≤ ovoff
    · rw [if_pos hbl] at h
      rw [Prod.mk.injEq, Prod.mk.injEq] at h
      obtain ⟨-, rfl, rfl⟩ := h
      exact ⟨rfl, rfl⟩
    · rw [if_neg hbl] at h
      by_cases hdirty : eng.1 ≠ 0 ∨ eng.2 = true
      · rw [if_pos hdirty] at h
        simp at h
      · rw [if_neg hdirty] at h
        simp at h

theorem chunk_step_fill_facts {cfg : StreamCfg} {readOf : Nat → Int → Int}
    {vad : Option (List (Int × Int))} {eng : Int × Bool} {st : RunState}
    {r : ChunkRec} {st' : RunState} {pret : Int}
    (hbound : ∀ c m, readOf c m ≤ m)
    (hlen : st.buffer_len ≤ cfg.max_chunk_samples + cfg.overlap_samples)
    (h : chunk_step cfg readOf vad eng st = (some r, st', pret)) :
    (r.eofLocal = false →
      cfg.max_chunk_samples + cfg.overlap_samples ≤
        r.available + r.overlap_offset) ∧
    r.available + r.overlap_offset ≤
      cfg.max_chunk_samples + cfg.overlap_samples := by
  unfold chunk_step at h
  by_cases h1 : st.eof_flag
  · rw [if_pos h1] at h
    simp at h
  · rw [if_neg h1] at h
    dsimp only at h
    set ovoff := (if st.next_idx > 0 then cfg.overlap_samples else 0) with hov
    set F := fill_read_buffer readOf
      (cfg.max_chunk_samples + cfg.overlap_samples)
      (cfg.max_chunk_samples + cfg.overlap_samples)
      ((cfg.max_chunk_samples + cfg.overlap_samples - st.buffer_len).toNat + 1)
      st.buffer_len false st.calls with hF
    have hfull : F.2.1 = false →
        cfg.max_chunk_samples + cfg.overlap_samples ≤ F.1 := by
      intro hf
      exact fill_read_buffer_full _ _ _ _ (by omega) hf
    have hle : F.1 ≤ cfg.max_chunk_samples + cfg.overlap_samples :=
      fill_read_buffer_le hbound _ _ _ _ hlen
    by_cases hbl : F.1 ≤ ovoff
    · rw [if_pos hbl] at h
      simp at h
    · rw [if_neg hbl] at h
      by_cases hdirty : eng.1 ≠ 0 ∨ eng.2 = true
      · rw [if_pos hdirty] at h
        rw [Prod.mk.injEq, Prod.mk.injEq, Option.some.injEq] at h
        obtain ⟨rfl, -, -⟩ := h
        exact ⟨fun hf => by have := hfull hf; dsimp only; omega,
          by dsimp only; omega⟩
      · rw [if_neg hdirty] at h
        rw [Prod.mk.injEq, Prod.mk.injEq, Option.some.injEq] at h
        obtain ⟨rfl, -, -⟩ := h
        exact ⟨fun hf => by have := hfull hf; dsimp only; omega,
          by dsimp only; omega⟩

theorem chunk_step_buffer_inv {cfg : StreamCfg} {readOf : Nat → Int → Int}
    {st : RunState} (vad : Option (List (Int × Int))) (eng : Int × Bool)
    (hbound : ∀ c m, readOf c m ≤ m)
    (hinv : 0 ≤ st.buffer_len ∧
      st.buffer_len ≤ cfg.max_chunk_samples + cfg.overlap_samples) :
    0 ≤ (chunk_step cfg readOf vad eng st).2.1.buffer_len ∧
    (chunk_step cfg readOf vad eng st).2.1.buffer_len ≤
      cfg.max_chunk_samples + cfg.overlap_samples := by
  unfold chunk_step
  by_cases h1 : st.eof_flag
  · rw [if_pos h1]
    exact hinv
  · rw [if_neg h1]
    dsimp only
    set ovoff := (if st.next_idx > 0 then cfg.overlap_samples else 0) with hov
    set F := fill_read_buffer readOf
      (cfg.max_chunk_samples + cfg.overlap_samples)
      (cfg.max_chunk_samples + cfg.overlap_samples)
      ((cfg.max_chunk_samples + cfg.overlap_samples - st.buffer_len).toNat + 1)
      st.buffer_len false st.calls with hF
    have hge : st.buffer_len ≤ F.1 := fill_read_buffer_ge _ _ _ _ _ _ _
    have hle : F.1 ≤ cfg.max_chunk_samples + cfg.overlap_samples :=
      fill_read_buffer_le hbound _ _ _ _ hinv.2
    by_cases hbl : F.1 ≤ ovoff
    · rw [if_pos hbl]
      exact ⟨by dsimp only; omega, by dsimp only; omega⟩
    · rw [if_neg hbl]
      by_cases hdirty : eng.1 ≠ 0 ∨ eng.2 = true
      · rw [if_pos hdirty]
        refine ⟨?_, ?_⟩ <;> dsimp only <;> split <;> omega
      · rw [if_neg hdirty]
        refine ⟨?_, ?_⟩ <;> dsimp only <;> split <;> omega

theorem run_loop_buffer_inv {cfg : StreamCfg} {readOf : Nat → Int → Int}
    {vadOf : Nat → Option (List (Int × Int))} {engOf : Nat → Int × Bool}
    (hbound : ∀ c m, readOf c m ≤ m) :
    ∀ (fuel : Nat) (st stf : RunState) (recs : List ChunkRec),
      run_loop cfg readOf vadOf engOf fuel st = some (stf, recs) →
      0 ≤ st.buffer_len →
      st.buffer_len ≤ cfg.max_chunk_samples + cfg.overlap_samples →
      0 ≤ stf.buffer_len ∧
        stf.buffer_len ≤ cfg.max_chunk_samples + cfg.overlap_samples
  | 0, st, stf, recs, hrun => by rw [run_loop] at hrun; exact absurd hrun (by simp)
  | fuel + 1, st, stf, recs, hrun => by
    intro h0 hcap
    rw [run_loop] at hrun
    rcases hstep : chunk_step cfg readOf (vadOf st.next_idx) (engOf st.next_idx)
      st with ⟨orec, st', pret⟩
    rw [hstep] at hrun
    have hinv' := chunk_step_buffer_inv (vadOf st.next_idx)
      (engOf st.next_idx) hbound ⟨h0, hcap⟩
    rw [hstep] at hinv'
    dsimp only at hrun hinv'
    by_cases hp : pret = 0
    · rw [if_pos hp] at hrun
      rcases hrun2 : run_loop cfg readOf vadOf engOf fuel st' with _ | ⟨stf2, recs2⟩
      · rw [hrun2] at hrun
        exact absurd hrun (by simp)
      · rw [hrun2] at hrun
        rw [Option.some.injEq, Prod.mk.injEq] at hrun
        rw [← hrun.1]
        exact run_loop_buffer_inv hbound fuel st' stf2 recs2 hrun2
          hinv'.1 hinv'.2
    · rw [if_neg hp] at hrun
      rw [Option.some.injEq, Prod.mk.injEq] at hrun
      obtain ⟨hst, -⟩ := hrun
      rw [← hst]
      exact hinv'

theorem run_loop_recs_spec {cfg : StreamCfg} {readOf : Nat → Int → Int}
    {vadOf : Nat → Option (List (Int × Int))} {engOf : Nat → Int × Bool}
    (hbound : ∀ c m, readOf c m ≤ m) :
    ∀ (fuel : Nat) (st stf : RunState) (recs : List ChunkRec),
      run_loop cfg readOf vadOf engOf fuel st = some (stf, recs) →
      0 ≤ st.buffer_len →
      st.buffer_len ≤ cfg.max_chunk_samples + cfg.overlap_samples →
      ∀ (k : Nat) (hk : k < recs.length),
        ∃ st0 st1 pret,
          chunk_step cfg readOf (vadOf st0.next_idx) (engOf st0.next_idx) st0 =
            (some (recs.get ⟨k, hk⟩), st1, pret) ∧
          st0.next_idx = st.next_idx + k ∧
          st0.total = st.total + sumChunks (recs.take k) ∧
          0 ≤ st0.buffer_len ∧
          st0.buffer_len ≤ cfg.max_chunk_samples + cfg.overlap_samples
  | 0, st, stf, recs, hrun => by rw [run_loop] at hrun; exact absurd hrun (by simp)
  | fuel + 1, st, stf, recs, hrun => by
    intro h0 hcap
    rw [run_loop] at hrun
    rcases hstep : chunk_step cfg readOf (vadOf st.next_idx) (engOf st.next_idx)
      st with ⟨orec, st', pret⟩
    rw [hstep] at hrun
    have hinv' := chunk_step_buffer_inv (vadOf st.next_idx)
      (engOf st.next_idx) hbound ⟨h0, hcap⟩
    rw [hstep] at hinv'
    dsimp only at hrun hinv'
    by_cases hp : pret = 0
    · rw [if_pos hp] at hrun
      rcases hrun2 : run_loop cfg readOf vadOf engOf fuel st' with _ | ⟨stf2, recs2⟩
      · rw [hrun2] at hrun
        exact absurd hrun (by simp)
      · rw [hrun2] at hrun
        rw [Option.some.injEq, Prod.mk.injEq] at hrun
        cases orec with
        | none =>
          obtain ⟨hab, hpret⟩ := chunk_step_abort_of_none hstep
          exact absurd hpret (by omega)
        | some r =>
          obtain ⟨hidx, -, -, -, -, -, -, -, htot, hnidx, -, -⟩ :=
            chunk_step_some_spec hstep
          rw [← hrun.2]
          intro k hk
          match k with
          | 0 =>
            refine ⟨st, st', pret, ?_, by omega, by simp [sumChunks], h0, hcap⟩
            simpa using hstep
          | k + 1 =>
            have hk2 : k < recs2.length := by
              simpa using hk
            obtain ⟨st0, st1, p2, hs2, hidx2, htot2, hb0, hb1⟩ :=
              run_loop_recs_spec hbound fuel st' stf2 recs2 hrun2
                hinv'.1 hinv'.2 k hk2
            refine ⟨st0, st1, p2, ?_, ?_, ?_, hb0, hb1⟩
            · simpa using hs2
            · omega
            · rw [htot2, htot]
              simp only [List.take_succ_cons, sumChunks, List.map_cons,
                List.sum_cons]
              ring
    · rw [if_neg hp] at hrun
      rw [Option.some.injEq, Prod.mk.injEq] at hrun
      cases orec with
      | none =>
        rw [← hrun.2]
        intro k hk
        exact absurd hk (by simp)
      | some r =>
        rw [← hrun.2]
        intro k hk
        match k with
        | 0 =>
          refine ⟨st, st', pret, ?_, by omega, by simp [sumChunks], h0, hcap⟩
          simpa using hstep
        | k + 1 => exact absurd hk (by simp)

theorem run_loop_abort_iff {cfg : StreamCfg} {readOf : Nat → Int → Int}
    {vadOf : Nat → Option (List (Int × Int))} {engOf : Nat → Int × Bool} :
    ∀ (fuel : Nat) (st stf : RunState) (recs : List ChunkRec),
      run_loop cfg readOf vadOf engOf fuel st = some (stf, recs) →
      (stf.abort = true ↔ (st.abort = true ∨
        ∃ r ∈ recs, (engOf r.idx).1 ≠ 0 ∨ (engOf r.idx).2 = true))
  | 0, st, stf, recs, hrun => by rw [run_loop] at hrun; exact absurd hrun (by simp)
  | fuel + 1, st, stf, recs, hrun => by
    rw [run_loop] at hrun
    rcases hstep : chunk_step cfg readOf (vadOf st.next_idx) (engOf st.next_idx)
      st with ⟨orec, st', pret⟩
    rw [hstep] at hrun
    dsimp only at hrun
    by_cases hp : pret = 0
    · rw [if_pos hp] at hrun
      rcases hrun2 : run_loop cfg readOf vadOf engOf fuel st' with _ | ⟨stf2, recs2⟩
      · rw [hrun2] at hrun
        exact absurd hrun (by simp)
      · rw [hrun2] at hrun
        rw [Option.some.injEq, Prod.mk.injEq] at hrun
        have ih := run_loop_abort_iff fuel st' stf2 recs2 hrun2
        cases orec with
        | none =>
          obtain ⟨-, hpret⟩ := chunk_step_abort_of_none hstep
          exact absurd hpret (by omega)
        | some r =>
          obtain ⟨hidx, -, -, -, -, -, -, -, -, -, habort, -⟩ :=
            chunk_step_some_spec hstep
          rw [← hrun.1, ← hrun.2]
          dsimp only
          rw [ih, habort]
          constructor
          · rintro ((hab | hd) | ⟨r2, hr2, hd2⟩)
            · exact Or.inl hab
            · exact Or.inr ⟨r, by simp, by rw [hidx]; exact hd⟩
            · exact Or.inr ⟨r2, by simp [hr2], hd2⟩
          · rintro (hab | ⟨r2, hr2, hd2⟩)
            · exact Or.inl (Or.inl hab)
            · rcases List.mem_cons.mp hr2 with rfl | hr2'
              · exact Or.inl (Or.inr (by rw [← hidx]; exact hd2))
              · exact Or.inr ⟨r2, hr2', hd2⟩
    · rw [if_neg hp] at hrun
      rw [Option.some.injEq, Prod.mk.injEq] at hrun
      cases orec with
      | none =>
        obtain ⟨hab, -⟩ := chunk_step_abort_of_none hstep
        rw [← hrun.1, ← hrun.2, hab]
        simp
      | some r =>
        obtain ⟨hidx, -, -, -, -, -, -, -, -, -, habort, -⟩ :=
          chunk_step_some_spec hstep
        rw [← hrun.1, ← hrun.2]
        dsimp only
        rw [habort]
        constructor
        · rintro (hab | hd)
          · exact Or.inl hab
          · exact Or.inr ⟨r, by simp, by rw [hidx]; exact hd⟩
        · rintro (hab | ⟨r2, hr2, hd2⟩)
          · exact Or.inl hab
          · rcases List.mem_singleton.mp hr2 with rfl
            exact Or.inr (by rw [← hidx]; exact hd2)

theorem cdiv_cs_mono {a b : Int} (ha : 0 ≤ a) (hab : a ≤ b) :
    cdiv (a * 100) WHISPER_SAMPLE_RATE ≤ cdiv (b * 100) WHISPER_SAMPLE_RATE := by
  unfold cdiv
  rw [Int.tdiv_eq_ediv (by omega) (by norm_num [WHISPER_SAMPLE_RATE]),
    Int.tdiv_eq_ediv (by omega) (by norm_num [WHISPER_SAMPLE_RATE])]
  exact Int.ediv_le_ediv (by norm_num [WHISPER_SAMPLE_RATE]) (by omega)

theorem cdiv_cs_mul_le {a : Int} (ha : 0 ≤ a) :
    cdiv (a * 100) WHISPER_SAMPLE_RATE * 160 ≤ a := by
  unfold cdiv
  rw [Int.tdiv_eq_ediv (by omega) (by norm_num [WHISPER_SAMPLE_RATE]),
    WHISPER_SAMPLE_RATE]
  have h1 : a * 100 / 16000 = a / 160 := by
    rw [show (16000 : Int) = 100 * 160 by norm_num,
      show a * 100 = 100 * a by ring]
    exact Int.mul_ediv_mul_of_pos a 160 (by norm_num)
  rw [h1]
  exact Int.ediv_mul_le a (by norm_num)

theorem cdiv_cs_mul_of_dvd {a : Int} (hd : (160 : Int) ∣ a) :
    cdiv (a * 100) WHISPER_SAMPLE_RATE * 160 = a := by
  obtain ⟨k, rfl⟩ := hd
  unfold cdiv
  rw [WHISPER_SAMPLE_RATE, show 160 * k * 100 = k * 16000 by ring,
    Int.mul_tdiv_cancel k (by norm_num)]
  ring

theorem check_gap_cases (g0 g1 rs re ms : Int) :
    check_gap g0 g1 rs re ms = -1 ∨
    check_gap g0 g1 rs re ms = gap_cut rs re (g0, g1) := by
  by_cases hw : (g1 - g0) * 10 < ms
  · exact Or.inl (check_gap_of_narrow hw)
  · by_cases hi : g0 ≥ re ∨ g1 ≤ rs
    · exact Or.inl (check_gap_of_no_intersect hi)
    · push_neg at hw hi
      exact Or.inr (check_gap_of_qual hw hi.1 hi.2)

theorem fsis_go_cases (offcs rs re ms fe : Int) :
    ∀ (rest : List (Int × Int)) (last_end : Int),
      fsis_go offcs rs re ms fe last_end rest = -1 ∨
      ∃ g, fsis_go offcs rs re ms fe last_end rest = gap_cut rs re g
  | [], last_end => by
    rw [fsis_go]
    rcases check_gap_cases last_end re rs re ms with h | h
    · exact Or.inl h
    · exact Or.inr ⟨_, h⟩
  | s :: rest, last_end => by
    rw [fsis_go]
    dsimp only
    by_cases hskip : s.1 + offcs ≤ rs
    · rw [if_pos hskip]
      exact fsis_go_cases offcs rs re ms fe rest (s.2 + offcs)
    · rw [if_neg hskip]
      by_cases hbrk : last_end ≥ re
      · rw [if_pos hbrk]
        rcases check_gap_cases fe re rs re ms with h | h
        · exact Or.inl h
        · exact Or.inr ⟨_, h⟩
      · rw [if_neg hbrk]
        by_cases hp : check_gap last_end (s.1 + offcs) rs re ms ≥ 0
        · rw [if_pos hp]
          rcases check_gap_cases last_end (s.1 + offcs) rs re ms with h | h
          · rw [h] at hp; omega
          · exact Or.inr ⟨_, h⟩
        · rw [if_neg hp]
          exact fsis_go_cases offcs rs re ms fe rest (s.2 + offcs)

theorem find_silence_cases (segs : List (Int × Int)) (ss se ms voff : Int) :
    find_silence_in_segments segs ss se ms voff = -1 ∨
    ∃ g, find_silence_in_segments segs ss se ms voff =
      gap_cut (cdiv (ss * 100) WHISPER_SAMPLE_RATE)
        (cdiv (se * 100) WHISPER_SAMPLE_RATE) g := by
  cases segs with
  | nil => exact Or.inl rfl
  | cons s0 rest =>
    rw [find_silence_in_segments]
    exact fsis_go_cases _ _ _ _ _ rest (s0.2 + _)

theorem fcb_forced {mc mx ms avail : Int} {vad : Option (List (Int × Int))}
    {voff : Int} (h : mc ≥ min mx avail) :
    find_chunk_boundary mc mx ms avail vad voff = min mx avail := by
  unfold find_chunk_boundary
  rw [if_pos h]

theorem fcb_bounds {mc mx ms avail : Int} {vad : Option (List (Int × Int))}
    {voff : Int} (h : mc < min mx avail) (hmc0 : 0 ≤ mc)
    (h160 : (160 : Int) ∣ mc) :
    mc ≤ find_chunk_boundary mc mx ms avail vad voff ∧
    find_chunk_boundary mc mx ms avail vad voff ≤ min mx avail := by
  unfold find_chunk_boundary
  rw [if_neg (not_le.mpr h)]
  cases vad with
  | none => exact ⟨le_refl mc, h.le⟩
  | some segs =>
    dsimp only
    set rs := cdiv (mc * 100) WHISPER_SAMPLE_RATE with hrsdef
    set re := cdiv (min mx avail * 100) WHISPER_SAMPLE_RATE with hredef
    by_cases hp : find_silence_in_segments segs mc (min mx avail) ms voff > 0
    · rw [if_pos hp]
      rcases find_silence_cases segs mc (min mx avail) ms voff with hc | ⟨g, hc⟩
      · omega
      · rw [← hrsdef, ← hredef] at hc
        rw [hc]
        have hrs : 0 ≤ rs :=
          Int.tdiv_nonneg (by omega) (by norm_num [WHISPER_SAMPLE_RATE])
        have hrre : rs ≤ re := cdiv_cs_mono hmc0 h.le
        have hge := gap_cut_ge hrs hrre g
        have hle := gap_cut_le hrs hrre g
        have h1 : rs * 160 = mc := cdiv_cs_mul_of_dvd h160
        have h2 : re * 160 ≤ min mx avail := cdiv_cs_mul_le (by omega)
        omega
    · rw [if_neg hp]
      exact ⟨h.le, le_refl _⟩

/-- C5: for every chunk of index `i`, the chunk descriptor satisfies
`overlap_offset = 0` if `i = 0` and `overlap_samples` otherwise;
`actual_chunk_samples = chunk_samples + overlap_offset`; and
`time_offset = 100*(samples_before - overlap_offset)/sample_rate` in integer
arithmetic, where `samples_before` is the sum of `chunk_samples` over all
earlier chunks. -/
theorem C5_chunk_descriptor_invariants (cfg : StreamCfg)
    (readOf : Nat → Int → Int) (vadOf : Nat → Option (List (Int × Int)))
    (engOf : Nat → Int × Bool) (fuel : Nat) (stf : RunState)
    (recs : List ChunkRec) (hbound : ∀ c m, readOf c m ≤ m)
    (hcap : 0 ≤ cfg.max_chunk_samples + cfg.overlap_samples)
    (hrun : run_loop cfg readOf vadOf engOf fuel init_run_state =
      some (stf, recs)) :
    ∀ (k : Nat) (hk : k < recs.length),
      (recs.get ⟨k, hk⟩).idx = k ∧
      (recs.get ⟨k, hk⟩).overlap_offset =
        (if k = 0 then 0 else cfg.overlap_samples) ∧
      (recs.get ⟨k, hk⟩).actual_chunk_samples =
        (recs.get ⟨k, hk⟩).chunk_samples + (recs.get ⟨k, hk⟩).overlap_offset ∧
      (recs.get ⟨k, hk⟩).samples_before = sumChunks (recs.take k) ∧
      (recs.get ⟨k, hk⟩).time_offset =
        cdiv (100 * (sumChunks (recs.take k) -
          (recs.get ⟨k, hk⟩).overlap_offset)) WHISPER_SAMPLE_RATE := by
  intro k hk
  obtain ⟨st0, st1, pret, hs, hidx, htot, -, -⟩ :=
    run_loop_recs_spec hbound fuel init_run_state stf recs hrun
      (le_refl 0) hcap k hk
  obtain ⟨ridx, rsb, rov, ract, rtoff, -, -, -, -, -, -, -⟩ :=
    chunk_step_some_spec hs
  rw [init_run_state] at hidx htot
  dsimp only at hidx htot
  rw [Nat.zero_add] at hidx
  rw [zero_add] at htot
  refine ⟨by rw [ridx, hidx], ?_, ract, by rw [rsb, htot], ?_⟩
  · rw [rov, hidx]
    rcases Nat.eq_zero_or_pos k with rfl | hkpos
    · simp
    · rw [if_pos hkpos, if_neg (by omega)]
  · rw [rtoff, rsb, htot]

/-- C5 witness: a concrete two-chunk run (320-sample chunk then an EOF tail
chunk with 160 samples of overlap) on which the descriptor invariants are
instantiated. -/
theorem C5_chunk_descriptor_invariants_witness :
    (run_loop ⟨160, 320, 640, 300⟩
        (fun c m => if c = 0 then m else min m 0) (fun _ => none)
        (fun _ => ((0 : Int), false)) 5 init_run_state =
      some (⟨160, 800, 2, true, false, 2⟩,
        [⟨0, 0, 0, 320, 800, 320, 320, 0, false⟩,
         ⟨1, 320, 160, 320, 480, 480, 640, 1, true⟩])) ∧
    (∀ (k : Nat) (hk : k < ([⟨0, 0, 0, 320, 800, 320, 320, 0, false⟩,
         ⟨1, 320, 160, 320, 480, 480, 640, 1, true⟩] :
          List ChunkRec).length),
      (([⟨0, 0, 0, 320, 800, 320, 320, 0, false⟩,
         ⟨1, 320, 160, 320, 480, 480, 640, 1, true⟩] :
          List ChunkRec).get ⟨k, hk⟩).idx = k ∧
      (([⟨0, 0, 0, 320, 800, 320, 320, 0, false⟩,
         ⟨1, 320, 160, 320, 480, 480, 640, 1, true⟩] :
          List ChunkRec).get ⟨k, hk⟩).overlap_offset =
        (if k = 0 then 0 else (160 : Int)) ∧
      (([⟨0, 0, 0, 320, 800, 320, 320, 0, false⟩,
         ⟨1, 320, 160, 320, 480, 480, 640, 1, true⟩] :
          List ChunkRec).get ⟨k, hk⟩).actual_chunk_samples =
        (([⟨0, 0, 0, 320, 800, 320, 320, 0, false⟩,
         ⟨1, 320, 160, 320, 480, 480, 640, 1, true⟩] :
          List ChunkRec).get ⟨k, hk⟩).chunk_samples +
        (([⟨0, 0, 0, 320, 800, 320, 320, 0, false⟩,
         ⟨1, 320, 160, 320, 480, 480, 640, 1, true⟩] :
          List ChunkRec).get ⟨k, hk⟩).overlap_offset ∧
      (([⟨0, 0, 0, 320, 800, 320, 320, 0, false⟩,
         ⟨1, 320, 160, 320, 480, 480, 640, 1, true⟩] :
          List ChunkRec).get ⟨k, hk⟩).samples_before =
        sumChunks (([⟨0, 0, 0, 320, 800, 320, 320, 0, false⟩,
         ⟨1, 320, 160, 320, 480, 480, 640, 1, true⟩] :
          List ChunkRec).take k) ∧
      (([⟨0, 0, 0, 320, 800, 320, 320, 0, false⟩,
         ⟨1, 320, 160, 320, 480, 480, 640, 1, true⟩] :
          List ChunkRec).get ⟨k, hk⟩).time_offset =
        cdiv (100 * (sumChunks (([⟨0, 0, 0, 320, 800, 320, 320, 0, false⟩,
         ⟨1, 320, 160, 320, 480, 480, 640, 1, true⟩] :
          List ChunkRec).take k) -
          (([⟨0, 0, 0, 320, 800, 320, 320, 0, false⟩,
         ⟨1, 320, 160, 320, 480, 480, 640, 1, true⟩] :
          List ChunkRec).get ⟨k, hk⟩).overlap_offset))
          WHISPER_SAMPLE_RATE) :=
  ⟨by decide,
   C5_chunk_descriptor_invariants ⟨160, 320, 640, 300⟩
     (fun c m => if c = 0 then m else min m 0) (fun _ => none)
     (fun _ => ((0 : Int), false)) 5 ⟨160, 800, 2, true, false, 2⟩
     [⟨0, 0, 0, 320, 800, 320, 320, 0, false⟩,
      ⟨1, 320, 160, 320, 480, 480, 640, 1, true⟩]
     (by
       intro c m
       dsimp only
       by_cases h : c = 0
       · rw [if_pos h]
       · rw [if_neg h]
         exact min_le_left m 0)
     (by decide) (by decide)⟩

/-- C3 (amended): every non-final chunk (one not produced by the EOF tail
rule) satisfies `min_chunk_samples ≤ chunk_samples ≤ max_chunk_samples`,
provided `min_chunk_samples` is a multiple of `sample_rate/100 = 160` (as it
is whenever `min_chunk_ms` is a multiple of 10 ms); and when EOF has been
observed and the leftover after the selected boundary would be smaller than
`min_chunk_samples`, the chunk takes `chunk_samples = buffer_len -
overlap_offset`, consuming the whole tail. -/
theorem C3_chunk_sizing_amended (cfg : StreamCfg) (readOf : Nat → Int → Int)
    (vadOf : Nat → Option (List (Int × Int))) (engOf : Nat → Int × Bool)
    (fuel : Nat) (stf : RunState) (recs : List ChunkRec)
    (hbound : ∀ c m, readOf c m ≤ m)
    (hmm : cfg.min_chunk_samples ≤ cfg.max_chunk_samples)
    (hpos : 0 < cfg.min_chunk_samples)
    (hov : 0 ≤ cfg.overlap_samples)
    (h160 : (160 : Int) ∣ cfg.min_chunk_samples)
    (hrun : run_loop cfg readOf vadOf engOf fuel init_run_state =
      some (stf, recs)) :
    ∀ r ∈ recs,
      ((r.eofLocal = true ∧
          r.available - r.boundary < cfg.min_chunk_samples) →
        r.chunk_samples = r.available) ∧
      (¬(r.eofLocal = true ∧
          r.available - r.boundary < cfg.min_chunk_samples) →
        cfg.min_chunk_samples ≤ r.chunk_samples ∧
        r.chunk_samples ≤ cfg.max_chunk_samples) := by
  intro r hr
  obtain ⟨⟨k, hk⟩, hget⟩ := List.mem_iff_get.mp hr
  obtain ⟨st0, st1, pret, hs, -, -, hb0, hb1⟩ :=
    run_loop_recs_spec hbound fuel init_run_state stf recs hrun
      (le_refl 0) (by simp only [init_run_state]; omega) k hk
  rw [hget] at hs
  obtain ⟨-, -, rov, -, -, rchunk, rbound, ravail, -, -, -, -⟩ :=
    chunk_step_some_spec hs
  have ffacts := chunk_step_fill_facts hbound hb1 hs
  have hovle : r.overlap_offset ≤ cfg.overlap_samples := by
    rw [rov]; split
    · exact le_refl _
    · exact hov
  have hovge : 0 ≤ r.overlap_offset := by
    rw [rov]; split
    · exact hov
    · exact le_refl _
  constructor
  · intro htail
    rw [rchunk, if_pos htail]
  · intro hnf
    rw [rchunk, if_neg hnf, rbound]
    by_cases hforce : cfg.min_chunk_samples ≥
        min cfg.max_chunk_samples r.available
    · rw [fcb_forced hforce]
      refine ⟨?_, min_le_left _ _⟩
      cases heof : r.eofLocal with
      | false =>
        have h1 := ffacts.1 heof
        omega
      | true =>
        have h1 : ¬(r.available - r.boundary < cfg.min_chunk_samples) :=
          fun hc => hnf ⟨heof, hc⟩
        rw [rbound, fcb_forced hforce] at h1
        omega
    · push_neg at hforce
      exact ⟨(fcb_bounds hforce (by omega) h160).1,
        le_trans (fcb_bounds hforce (by omega) h160).2 (min_le_left _ _)⟩

/-- C3 witness: the amended chunk-sizing bounds instantiated on a concrete
two-chunk run whose configuration has `min_chunk_samples = 320` (a multiple
of 160). -/
theorem C3_chunk_sizing_amended_witness :
    ((0 : Int) < 320 ∧ (320 : Int) ≤ 640 ∧ (0 : Int) ≤ 160 ∧
      (160 : Int) ∣ 320) ∧
    (∀ r ∈ ([⟨0, 0, 0, 320, 800, 320, 320, 0, false⟩,
         ⟨1, 320, 160, 320, 480, 480, 640, 1, true⟩] : List ChunkRec),
      ((r.eofLocal = true ∧ r.available - r.boundary < (320 : Int)) →
        r.chunk_samples = r.available) ∧
      (¬(r.eofLocal = true ∧ r.available - r.boundary < (320 : Int)) →
        (320 : Int) ≤ r.chunk_samples ∧ r.chunk_samples ≤ (640 : Int))) :=
  ⟨by decide,
   C3_chunk_sizing_amended ⟨160, 320, 640, 300⟩
     (fun c m => if c = 0 then m else min m 0) (fun _ => none)
     (fun _ => ((0 : Int), false)) 5 ⟨160, 800, 2, true, false, 2⟩
     [⟨0, 0, 0, 320, 800, 320, 320, 0, false⟩,
      ⟨1, 320, 160, 320, 480, 480, 640, 1, true⟩]
     (by
       intro c m
       dsimp only
       by_cases h : c = 0
       · rw [if_pos h]
       · rw [if_neg h]
         exact min_le_left m 0)
     (by decide) (by decide) (by decide) (by decide) (by decide)⟩

/-- C3 counterexample to the claim as stated: with `min_chunk_samples = 240`
(`min_chunk_ms = 15`, not a multiple of 10 ms), a VAD gap straddling the
start of the search range makes the boundary selector cut at sample 160
(centisecond rounding), so chunk 0 is a non-final chunk (`eofLocal = false`)
with `chunk_samples = 160 < 240 = min_chunk_samples`, contradicting "every
non-final chunk satisfies `min_chunk_samples ≤ chunk_samples`". -/
theorem C3_counterexample :
    ((run_loop ⟨0, 240, 1600, 20⟩
        (fun c m => if c = 0 then m else min m 0)
        (fun i => if i = 0 then some [(0, 0), (2, 10)] else none)
        (fun _ => ((0 : Int), false)) 12 init_run_state).map
      (fun p => p.2.map
        (fun r => (r.idx, r.chunk_samples, r.available, r.boundary,
          r.eofLocal)))) =
      some [(0, 160, 1600, 160, false), (1, 240, 1440, 240, true),
        (2, 240, 1200, 240, true), (3, 240, 960, 240, true),
        (4, 240, 720, 240, true), (5, 240, 480, 240, true),
        (6, 240, 240, 240, true)] ∧
    (160 : Int) < 240 := by
  refine ⟨by decide, by decide⟩

/-- C9: `whisper_stream_full` returns 0 exactly when the stream runs to EOF
completion without the abort flag having been set; it returns -1 when an
initialization allocation fails, or when the run ends with the abort flag
set, which happens precisely when `whisper_full` returns nonzero for some
chunk or the host abort callback reports true after some chunk. -/
theorem C9_stream_full_result (cfg : StreamCfg) (readOf : Nat → Int → Int)
    (vadOf : Nat → Option (List (Int × Int))) (engOf : Nat → Int × Bool)
    (fuel : Nat) (stf : RunState) (recs : List ChunkRec)
    (hrun : run_loop cfg readOf vadOf engOf fuel init_run_state =
      some (stf, recs)) :
    whisper_stream_full_model false cfg readOf vadOf engOf fuel =
      some (-1) ∧
    (whisper_stream_full_model true cfg readOf vadOf engOf fuel = some 0 ↔
      stf.abort = false) ∧
    (stf.abort = false ↔
      ∀ r ∈ recs, (engOf r.idx).1 = 0 ∧ (engOf r.idx).2 = false) ∧
    (whisper_stream_full_model true cfg readOf vadOf engOf fuel = some (-1) ↔
      ∃ r ∈ recs, (engOf r.idx).1 ≠ 0 ∨ (engOf r.idx).2 = true) := by
  have habort := run_loop_abort_iff fuel init_run_state stf recs hrun
  rw [init_run_state] at habort
  dsimp only at habort
  simp only [Bool.false_eq_true, false_or] at habort
  have hmodel : whisper_stream_full_model true cfg readOf vadOf engOf fuel =
      some (if stf.abort then -1 else 0) := by
    unfold whisper_stream_full_model
    rw [if_neg (by simp), hrun]
    rfl
  refine ⟨rfl, ?_, ?_, ?_⟩
  · rw [hmodel]
    constructor
    · intro h
      rw [Option.some.injEq] at h
      by_contra hab
      rw [Bool.not_eq_false] at hab
      rw [if_pos hab] at h
      omega
    · intro h
      rw [h]
      rfl
  · rw [← Bool.not_eq_true, habort]
    push_neg
    constructor
    · intro h r hr
      exact ⟨(h r hr).1, by simpa using (h r hr).2⟩
    · intro h r hr
      exact ⟨(h r hr).1, by simp [(h r hr).2]⟩
  · rw [hmodel, ← habort]
    constructor
    · intro h
      rw [Option.some.injEq] at h
      by_contra hab
      rw [Bool.not_eq_true] at hab
      rw [if_neg (by simp [hab])] at h
      omega
    · intro h
      rw [h]
      rfl

/-- C9 witness: on a clean two-chunk run the model returns `some 0`, every
chunk's engine result is `(0, false)`, and with allocation failure it
returns `some (-1)`. -/
theorem C9_stream_full_result_witness :
    (run_loop ⟨160, 320, 640, 300⟩
        (fun c m => if c = 0 then m else min m 0) (fun _ => none)
        (fun _ => ((0 : Int), false)) 5 init_run_state =
      some (⟨160, 800, 2, true, false, 2⟩,
        [⟨0, 0, 0, 320, 800, 320, 320, 0, false⟩,
         ⟨1, 320, 160, 320, 480, 480, 640, 1, true⟩])) ∧
    (whisper_stream_full_model false ⟨160, 320, 640, 300⟩
        (fun c m => if c = 0 then m else min m 0) (fun _ => none)
        (fun _ => ((0 : Int), false)) 5 = some (-1) ∧
      (whisper_stream_full_model true ⟨160, 320, 640, 300⟩
          (fun c m => if c = 0 then m else min m 0) (fun _ => none)
          (fun _ => ((0 : Int), false)) 5 = some 0 ↔
        (⟨160, 800, 2, true, false, 2⟩ : RunState).abort = false) ∧
      ((⟨160, 800, 2, true, false, 2⟩ : RunState).abort = false ↔
        ∀ r ∈ ([⟨0, 0, 0, 320, 800, 320, 320, 0, false⟩,
           ⟨1, 320, 160, 320, 480, 480, 640, 1, true⟩] : List ChunkRec),
          ((fun _ => ((0 : Int), false)) r.idx).1 = 0 ∧
          ((fun _ => ((0 : Int), false)) r.idx).2 = false) ∧
      (whisper_stream_full_model true ⟨160, 320, 640, 300⟩
          (fun c m => if c = 0 then m else min m 0) (fun _ => none)
          (fun _ => ((0 : Int), false)) 5 = some (-1) ↔
        ∃ r ∈ ([⟨0, 0, 0, 320, 800, 320, 320, 0, false⟩,
           ⟨1, 320, 160, 320, 480, 480, 640, 1, true⟩] : List ChunkRec),
          ((fun _ => ((0 : Int), false)) r.idx).1 ≠ 0 ∨
          ((fun _ => ((0 : Int), false)) r.idx).2 = true)) :=
  ⟨by decide,
   C9_stream_full_result ⟨160, 320, 640, 300⟩
     (fun c m => if c = 0 then m else min m 0) (fun _ => none)
     (fun _ => ((0 : Int), false)) 5 ⟨160, 800, 2, true, false, 2⟩
     [⟨0, 0, 0, 320, 800, 320, 320, 0, false⟩,
      ⟨1, 320, 160, 320, 480, 480, 640, 1, true⟩]
     (by decide)⟩

/-- C4 (amended): the ring read buffer never holds more than its capacity of
`max_chunk_samples + overlap_samples` samples (for a producer that never
returns more than requested); and each hand-off (advance by
`actual_chunk_samples`, shifting from `keep_start = max(0,
actual_chunk_samples - overlap_samples)`) retains exactly
`(content - actual_chunk_samples) + min(actual_chunk_samples,
overlap_samples)` trailing samples of the pre-hand-off buffer: the
unconsumed samples plus the overlap tail of the consumed chunk — not
`min(overlap_samples, content)` as the claim states. -/
theorem C4_ring_buffer_amended :
    (∀ (readOf : Nat → Int → Int) (buffer_size target : Int) (fuel : Nat)
        (len : Int) (eof : Bool) (calls : Nat),
      (∀ c m, readOf c m ≤ m) → len ≤ buffer_size →
      (fill_read_buffer readOf buffer_size target fuel len eof calls).1 ≤
        buffer_size) ∧
    (∀ (cfg : StreamCfg) (readOf : Nat → Int → Int)
        (vadOf : Nat → Option (List (Int × Int))) (engOf : Nat → Int × Bool)
        (fuel : Nat) (st stf : RunState) (recs : List ChunkRec),
      (∀ c m, readOf c m ≤ m) →
      run_loop cfg readOf vadOf engOf fuel st = some (stf, recs) →
      0 ≤ st.buffer_len →
      st.buffer_len ≤ cfg.max_chunk_samples + cfg.overlap_samples →
      0 ≤ stf.buffer_len ∧
        stf.buffer_len ≤ cfg.max_chunk_samples + cfg.overlap_samples) ∧
    (∀ (buf : List Int) (actual overlap : Int),
      0 ≤ overlap → 0 ≤ actual → actual ≤ buf.length →
      ((handoff_retained buf actual overlap).length : Int) =
        (buf.length : Int) - actual + min actual overlap ∧
      buf.take (max 0 (actual - overlap)).toNat ++
        handoff_retained buf actual overlap = buf) := by
  refine ⟨?_, ?_, ?_⟩
  · intro readOf buffer_size target fuel len eof calls hb hl
    exact fill_read_buffer_le hb fuel len eof calls hl
  · intro cfg readOf vadOf engOf fuel st stf recs hb hrun h0 hcap
    exact run_loop_buffer_inv hb fuel st stf recs hrun h0 hcap
  · intro buf actual overlap hov ha hle
    refine ⟨?_, List.take_append_drop _ _⟩
    rw [handoff_retained, List.length_drop]
    rcases le_total actual overlap with h | h
    · rw [min_eq_left h]
      have h1 : max 0 (actual - overlap) = 0 := by omega
      rw [h1]
      simp
    · rw [min_eq_right h]
      have h1 : max 0 (actual - overlap) = actual - overlap := by omega
      obtain ⟨k, hk⟩ := Int.eq_ofNat_of_zero_le
        (by omega : (0 : Int) ≤ actual - overlap)
      rw [h1, hk, Int.toNat_natCast]
      omega

set_option maxRecDepth 10000 in
/-- C4 witness: a concrete producer run and a concrete hand-off (the first
chunk of the C5/C9 witness run: 800 samples of content, `actual = 320`,
`overlap = 160`) on which the amended invariants are instantiated. -/
theorem C4_ring_buffer_amended_witness :
    ((∀ c m, (fun c m => if c = 0 then m else min m 0 : Nat → Int → Int)
        c m ≤ m) ∧
      (0 : Int) ≤ 0 ∧ (0 : Int) ≤ 640 + 160 ∧ (0 : Int) ≤ 160 ∧
      (0 : Int) ≤ 320 ∧ (320 : Int) ≤ (List.replicate 800 (0 : Int)).length) ∧
    ((0 : Int) ≤ (⟨160, 800, 2, true, false, 2⟩ : RunState).buffer_len ∧
      (⟨160, 800, 2, true, false, 2⟩ : RunState).buffer_len ≤ 640 + 160) ∧
    (((handoff_retained (List.replicate 800 (0 : Int)) 320 160).length :
        Int) = (800 : Int) - 320 + min 320 160 ∧
      (List.replicate 800 (0 : Int)).take (max 0 (320 - 160 : Int)).toNat ++
        handoff_retained (List.replicate 800 (0 : Int)) 320 160 =
        List.replicate 800 (0 : Int)) := by
  have hb : ∀ c m, (fun c m => if c = 0 then m else min m 0 :
      Nat → Int → Int) c m ≤ m := by
    intro c m
    dsimp only
    by_cases h : c = 0
    · rw [if_pos h]
    · rw [if_neg h]
      exact min_le_left m 0
  refine ⟨⟨hb, by decide, by decide, by decide, by decide, by decide⟩, ?_, ?_⟩
  · exact C4_ring_buffer_amended.2.1 ⟨160, 320, 640, 300⟩
      (fun c m => if c = 0 then m else min m 0) (fun _ => none)
      (fun _ => ((0 : Int), false)) 5 init_run_state
      ⟨160, 800, 2, true, false, 2⟩
      [⟨0, 0, 0, 320, 800, 320, 320, 0, false⟩,
       ⟨1, 320, 160, 320, 480, 480, 640, 1, true⟩]
      hb (by decide) (by decide) (by decide)
  · exact C4_ring_buffer_amended.2.2 (List.replicate 800 (0 : Int)) 320 160
      (by decide) (by decide) (by decide)

set_option maxRecDepth 10000 in
/-- C4 counterexample to the claim as stated: a hand-off from a full buffer
of 800 samples with `actual_chunk_samples = 320` and `overlap_samples = 160`
(exactly chunk 0 of the C5 witness run) retains 640 samples — the 480
unconsumed samples plus the 160-sample overlap tail — not
`min(overlap_samples, prior content) = 160`. -/
theorem C4_counterexample :
    (handoff_retained (List.replicate 800 (0 : Int)) 320 160).length = 640 ∧
    min (160 : Int) 800 = 160 ∧ (640 : Nat) ≠ 160 := by
  refine ⟨by decide, by decide, by decide⟩

/-- C6: at a context hand-off, if the language-override callback returns a
value different from -1 and different from the inherited `lang_id`, the
context passed to the engine's decoder contains zero tokens and the
overridden `lang_id`; otherwise it contains
`min(inherited token count, engine-supplied max_tokens)` inherited tokens
(the leading ones) and the inherited `lang_id`. -/
theorem C6_context_handoff_tokens (tokens : List Int)
    (lang_id max_tokens override : Int) (hmax : 0 ≤ max_tokens) :
    ((override ≠ -1 ∧ override ≠ lang_id) →
      copy_tokens tokens lang_id max_tokens (some override) = ([], override)) ∧
    ((override = -1 ∨ override = lang_id) →
      copy_tokens tokens lang_id max_tokens (some override) =
        (tokens.take (min (tokens.length : Int) max_tokens).toNat, lang_id) ∧
      (((copy_tokens tokens lang_id max_tokens (some override)).1.length :
          Int) = min (tokens.length : Int) max_tokens)) := by
  constructor
  · intro hov
    unfold copy_tokens
    dsimp only
    rw [if_pos hov]
    rfl
  · intro hov
    have hneg : ¬(override ≠ -1 ∧ override ≠ lang_id) := by
      rcases hov with h | h
      · exact fun hc => hc.1 h
      · exact fun hc => hc.2 h
    constructor
    · unfold copy_tokens
      dsimp only
      rw [if_neg hneg]
    · unfold copy_tokens
      dsimp only
      rw [if_neg hneg]
      dsimp only
      rw [List.length_take]
      rcases le_total (tokens.length : Int) max_tokens with h | h
      · rw [min_eq_left h]
        rw [Int.toNat_natCast, min_self]
      · rw [min_eq_right h]
        obtain ⟨k, hk⟩ := Int.eq_ofNat_of_zero_le hmax
        rw [hk, Int.toNat_natCast]
        rw [hk] at h
        have hk2 : k ≤ tokens.length := by exact_mod_cast h
        rw [min_eq_left hk2]

/-- C6 witness: concrete hand-offs with and without an effective override. -/
theorem C6_context_handoff_tokens_witness :
    (0 : Int) ≤ 2 ∧
    (((7 : Int) ≠ -1 ∧ (7 : Int) ≠ 5) →
      copy_tokens [3, 4, 9] 5 2 (some 7) = ([], 7)) ∧
    (((-1 : Int) = -1 ∨ (-1 : Int) = 5) →
      copy_tokens [3, 4, 9] 5 2 (some (-1)) =
        ([3, 4, 9].take (min ((3 : Int)) 2).toNat, 5) ∧
      (((copy_tokens [3, 4, 9] 5 2 (some (-1))).1.length : Int) =
        min ((3 : Int)) 2)) := by
  have h := C6_context_handoff_tokens [3, 4, 9] 5 2 7 (by decide)
  have h2 := C6_context_handoff_tokens [3, 4, 9] 5 2 (-1) (by decide)
  exact ⟨by decide, fun hc => h.1 hc, fun hc => by
    have := h2.2 hc
    simpa using this⟩

/-- C7: the `stream_complete(success)` event reaches the host iff the
session counter still equals the value captured at the start of the run,
with `success` true exactly when `whisper_stream_full` returned 0; when the
session changed the run completes silently; and fewer than `2^32`
`stop()`/`destroy()` increments always change the counter. -/
theorem C7_stream_complete_delivery (s after : Nat) (result : Int) (k : Nat)
    (hs : s < SESSION_MOD) (hk1 : 0 < k) (hk2 : k < SESSION_MOD) :
    (stream_complete_event s after result =
        some (decide (result = 0)) ↔ after = s) ∧
    (after ≠ s → stream_complete_event s after result = none) ∧
    (stream_complete_event s s result = some true ↔ result = 0) ∧
    nativeStop^[k] s ≠ s := by
  have hiter : ∀ j : Nat, nativeStop^[j] s = (s + j) % SESSION_MOD := by
    intro j
    induction j with
    | zero =>
      simp only [Function.iterate_zero, id_eq, Nat.add_zero]
      exact (Nat.mod_eq_of_lt hs).symm
    | succ j ih =>
      rw [Function.iterate_succ_apply', ih, nativeStop]
      simp only [SESSION_MOD]
      omega
  refine ⟨?_, ?_, ?_, ?_⟩
  · constructor
    · intro h
      by_contra hne
      rw [stream_complete_event, if_pos (fun hc => hne hc.symm)] at h
      exact absurd h (by simp)
    · intro h
      rw [stream_complete_event, if_neg (by omega)]
  · intro h
    rw [stream_complete_event, if_pos (fun hc => h hc.symm)]
  · rw [stream_complete_event, if_neg (by omega)]
    constructor
    · intro h
      rw [Option.some.injEq] at h
      simpa using h
    · intro h
      simp [h]
  · rw [hiter]
    simp only [SESSION_MOD] at hs hk2 ⊢
    omega

/-- C7 witness: session 3, one `stop()` increment, successful result. -/
theorem C7_stream_complete_delivery_witness :
    ((3 : Nat) < SESSION_MOD ∧ (0 : Nat) < 1 ∧ (1 : Nat) < SESSION_MOD) ∧
    ((stream_complete_event 3 4 0 = some (decide ((0 : Int) = 0)) ↔
        (4 : Nat) = 3) ∧
      ((4 : Nat) ≠ 3 → stream_complete_event 3 4 0 = none) ∧
      (stream_complete_event 3 3 0 = some true ↔ (0 : Int) = 0) ∧
      nativeStop^[1] 3 ≠ 3) :=
  ⟨⟨by decide, by decide, by decide⟩,
   C7_stream_complete_delivery 3 4 0 1 (by decide) (by decide) (by decide)⟩

/-- C8: given `chunk_progress ∈ [0,100]` and non-negative `samples_before`
and `chunk_samples`, every progress value delivered to the host satisfies
`0 ≤ p ≤ 100` and equals
`min(100, ((samples_before + chunk_progress*chunk_samples/100)*100)/duration_samples)`
in integer arithmetic; no event is delivered when the configured duration is
0 (`duration_samples ≤ 0`). -/
theorem C8_progress_bounds (cp sb cs total : Int) (hcp0 : 0 ≤ cp)
    (hcp1 : cp ≤ 100) (hsb : 0 ≤ sb) (hcs : 0 ≤ cs) :
    (total ≤ 0 → jni_progress_callback cp sb cs total = none) ∧
    jni_progress_callback cp sb cs (nativeSetDuration 0) = none ∧
    (0 < total →
      jni_progress_callback cp sb cs total =
        some (min 100 (cdiv ((sb + cdiv (cp * cs) 100) * 100) total)) ∧
      ∀ p, jni_progress_callback cp sb cs total = some p →
        0 ≤ p ∧ p ≤ 100) := by
  refine ⟨?_, ?_, ?_⟩
  · intro h
    rw [jni_progress_callback, if_pos h]
  · rw [jni_progress_callback, if_pos (by decide)]
  · intro h
    have hdone : 0 ≤ sb + cdiv (cp * cs) 100 := by
      have := Int.tdiv_nonneg (mul_nonneg hcp0 hcs) (by norm_num : (0:Int) ≤ 100)
      unfold cdiv
      omega
    have hoverall : 0 ≤ cdiv ((sb + cdiv (cp * cs) 100) * 100) total := by
      exact Int.tdiv_nonneg (mul_nonneg hdone (by norm_num)) h.le
    constructor
    · rw [jni_progress_callback, if_neg (by omega)]
      dsimp only
      rw [ite_gt_min, min_comm]
    · intro p hp
      rw [jni_progress_callback, if_neg (by omega), Option.some.injEq] at hp
      rw [← hp]
      constructor
      · split
        · norm_num
        · exact hoverall
      · split
        · exact le_refl _
        · omega

/-- C8 witness: `chunk_progress = 50`, `samples_before = 100`,
`chunk_samples = 200`, duration 1000 samples gives progress 20. -/
theorem C8_progress_bounds_witness :
    ((0 : Int) ≤ 50 ∧ (50 : Int) ≤ 100 ∧ (0 : Int) ≤ 100 ∧
      (0 : Int) ≤ 200) ∧
    (((1000 : Int) ≤ 0 → jni_progress_callback 50 100 200 1000 = none) ∧
      jni_progress_callback 50 100 200 (nativeSetDuration 0) = none ∧
      ((0 : Int) < 1000 →
        jni_progress_callback 50 100 200 1000 =
          some (min 100 (cdiv ((100 + cdiv (50 * 200) 100) * 100) 1000)) ∧
        ∀ p, jni_progress_callback 50 100 200 1000 = some p →
          0 ≤ p ∧ p ≤ 100)) ∧
    jni_progress_callback 50 100 200 1000 = some 20 :=
  ⟨⟨by decide, by decide, by decide, by decide⟩,
   C8_progress_bounds 50 100 200 1000 (by decide) (by decide) (by decide)
     (by decide),
   by decide⟩

/-- C10: the 'no override' sentinel of the language callback is -1, not 0:
`copy_tokens` treats any returned value other than -1 as a concrete language
id (a return of 0 acts as an override to language id 0, unlike a return of
-1, so the header comment describing 0 as 'auto-detect/no override' does not
match the implementation), and the JNI layer initializes and resets
`lang_override` to -1. -/
theorem C10_language_sentinel :
    (∀ (tokens : List Int) (lang_id max_tokens : Int), lang_id ≠ 0 →
      copy_tokens tokens lang_id max_tokens (some 0) = ([], 0)) ∧
    (∀ (tokens : List Int) (lang_id max_tokens : Int),
      copy_tokens tokens lang_id max_tokens (some (-1)) =
        copy_tokens tokens lang_id max_tokens none) ∧
    (∀ (tokens : List Int) (lang_id max_tokens : Int), lang_id ≠ 0 →
      copy_tokens tokens lang_id max_tokens (some 0) ≠
        copy_tokens tokens lang_id max_tokens none) ∧
    jni_lang_override_init = -1 ∧
    (∀ (α : Type) (whisper_lang_id : α → Int),
      nativeUpdateLanguage whisper_lang_id none = -1) := by
  refine ⟨?_, ?_, ?_, rfl, fun _ _ => rfl⟩
  · intro tokens lang_id max_tokens hl
    unfold copy_tokens
    dsimp only
    rw [if_pos ⟨by decide, fun hc => hl hc.symm⟩]
    rfl
  · intro tokens lang_id max_tokens
    unfold copy_tokens
    dsimp only
    rw [if_neg (fun hc => hc.1 rfl)]
  · intro tokens lang_id max_tokens hl
    unfold copy_tokens
    dsimp only
    rw [if_pos ⟨by decide, fun hc => hl hc.symm⟩]
    intro hc
    have := congrArg Prod.snd hc
    dsimp only at this
    exact hl this.symm

/-- C10 witness: with inherited language 5, an override callback returning 0
discards the context and overrides to language 0, while -1 keeps it. -/
theorem C10_language_sentinel_witness :
    ((5 : Int) ≠ 0 ∧ copy_tokens [3, 4] 5 8 (some 0) = ([], 0)) ∧
    copy_tokens [3, 4] 5 8 (some (-1)) = copy_tokens [3, 4] 5 8 none ∧
    copy_tokens [3, 4] 5 8 (some 0) ≠ copy_tokens [3, 4] 5 8 none :=
  ⟨⟨by decide, C10_language_sentinel.1 [3, 4] 5 8 (by decide)⟩,
   C10_language_sentinel.2.1 [3, 4] 5 8,
   C10_language_sentinel.2.2.1 [3, 4] 5 8 (by decide)⟩

/-- C1: for every segment reported by the engine during a chunk, the stream
emits it with `t0 = max(t0_raw + time_offset, output_start, last_t1)` and
`t1 = min(t1_raw + time_offset, time_offset + chunk_samples*100/sample_rate)`;
the segment is dropped exactly when `t0 ≥ t1` after these adjustments, and
otherwise it is emitted with `t0 < t1` and `last_t1` is updated to `t1`, so
the segments emitted in order within a stream run (threaded through one
per-worker `last_t1`, initially 0) have non-decreasing `t0` and `t1`. -/
theorem C1_segment_clipping_and_monotone :
    (∀ off os cs last_t1 t0_raw t1_raw : Int,
      clip_segment off os cs last_t1 t0_raw t1_raw =
        (let t0 := max (max (t0_raw + off) os) last_t1
         let t1 := min (t1_raw + off) (off + cdiv (cs * 100) WHISPER_SAMPLE_RATE)
         if t0 ≥ t1 then (none, last_t1) else (some (t0, t1), t1))) ∧
    (∀ runs : List ((Int × Int × Int) × List (Int × Int)),
      List.Chain' (fun p q : Int × Int => p.1 ≤ q.1 ∧ p.2 ≤ q.2)
        (emit_stream_segments 0 runs).1 ∧
      ∀ s ∈ (emit_stream_segments 0 runs).1, s.1 < s.2) :=
  ⟨clip_segment_eq, fun runs =>
    ⟨ChainFrom_chain' (emit_stream_segments_props runs 0).1,
     ChainFrom_pos (emit_stream_segments_props runs 0).1⟩⟩

/-- C1 witness: the clipping normal form and the monotonicity of the
emitted sequence instantiated on a concrete two-chunk run. -/
theorem C1_segment_clipping_and_monotone_witness :
    (clip_segment 10 12 3200 0 5 30 =
      (let t0 := max (max ((5 : Int) + 10) 12) 0
       let t1 := min ((30 : Int) + 10)
         (10 + cdiv (3200 * 100) WHISPER_SAMPLE_RATE)
       if t0 ≥ t1 then (none, (0 : Int)) else (some (t0, t1), t1))) ∧
    (List.Chain' (fun p q : Int × Int => p.1 ≤ q.1 ∧ p.2 ≤ q.2)
      (emit_stream_segments 0
        [((10, 12, 3200), [(5, 30), (2, 50)]),
         ((50, 52, 3200), [(0, 40)])]).1 ∧
     ∀ s ∈ (emit_stream_segments 0
        [((10, 12, 3200), [(5, 30), (2, 50)]),
         ((50, 52, 3200), [(0, 40)])]).1, s.1 < s.2) :=
  ⟨C1_segment_clipping_and_monotone.1 10 12 3200 0 5 30,
   C1_segment_clipping_and_monotone.2
     [((10, 12, 3200), [(5, 30), (2, 50)]), ((50, 52, 3200), [(0, 40)])]⟩

end VoiceSkip
